import Mathlib

/-!
Verification development for the `xbadpcm` crate (Xbox ADPCM encoder/decoder).

This file gives a shallow embedding of the crate's four source files
(`util.rs`, `decoder.rs`, `encoder.rs`, `lib.rs`) and proves properties of
the embedded code.

Conventions used in the embedding:
* Rust `i16`/`i32`/`isize` values are modelled as `Int`; `u8`/`u16`/`u32`/
  `usize` values as `Nat`.  All arithmetic in the crate stays far away from
  the overflow boundaries of the machine types involved (this is noted at
  each definition), so no wrap-around modelling is needed except for the
  explicit `as i16` / `as u16` casts, which are modelled directly.
* Rust `i32` division (truncation toward zero) is modelled by `Int.tdiv`.
* The fixed-capacity buffers (`[u8; 288]`, `[[i16; 66]; 8]`) together with
  their `buffer_size` field are modelled by lists holding exactly the live
  prefix (`buffer[..buffer_size]`); bytes/samples beyond `buffer_size` are
  never read by the source.
* The sink traits (`XboxADPCMDecodeSink`, `XboxADPCMEncodeSink`) become
  structures of state-passing functions returning `Except`.
* Stateful methods return the mutated state together with an `Except`
  result (Rust methods mutate `self` even when they return `Err`).
* A Rust panic (index out of bounds, `assert!`) is modelled by the
  distinguished outcome `crashed`.  The `while` loops of `decode`/`encode`
  are translated with a fuel parameter that the top-level entry points set
  to `input length + 2`, which dominates the iteration count of the source
  loops (every iteration either loads at least one byte/sample or is the
  single possible initial iteration on an already-full buffer).
* The `f64` error accumulator of `calculate_minimum_error` only ever holds
  sums of at most 65 values of the form `u32::pow(d, 2)` with `d ≤ 65535`;
  all such sums are integers below `2^53`, hence every `f64` operation the
  source performs on them is exact, and the accumulator is modelled by
  `Nat`.
-/

namespace Xbadpcm

/-- Constant `SAMPLES_PER_CHUNK` from `util.rs`. -/
def SAMPLES_PER_CHUNK : Nat := 8

/-- Constant `CHUNKS_PER_BLOCK` from `util.rs`. -/
def CHUNKS_PER_BLOCK : Nat := 8

/-- Constant `HALF_BYTE_SAMPLES_PER_ADPCM_BLOCK` from `util.rs`. -/
def HALF_BYTE_SAMPLES_PER_ADPCM_BLOCK : Nat := SAMPLES_PER_CHUNK * CHUNKS_PER_BLOCK

/-- Constant `SAMPLES_PER_ADPCM_BLOCK` from `util.rs`. -/
def SAMPLES_PER_ADPCM_BLOCK : Nat := HALF_BYTE_SAMPLES_PER_ADPCM_BLOCK

/-- Constant `ADPCM_BLOCK_SIZE` from `util.rs` (`4 + 64 * 4 / 8 = 36`). -/
def ADPCM_BLOCK_SIZE : Nat := 4 + HALF_BYTE_SAMPLES_PER_ADPCM_BLOCK * 4 / 8

/-- Constant `MAX_AUDIO_CHANNEL_COUNT` from `util.rs`. -/
def MAX_AUDIO_CHANNEL_COUNT : Nat := 8

/-- Constant `STEP_TABLE` from `util.rs`: 89 unsigned 16-bit step sizes. -/
def STEP_TABLE : List Nat := [
    7, 8, 9, 10, 11, 12, 13, 14, 16, 17,
    19, 21, 23, 25, 28, 31, 34, 37, 41, 45,
    50, 55, 60, 66, 73, 80, 88, 97, 107, 118,
    130, 143, 157, 173, 190, 209, 230, 253, 279, 307,
    337, 371, 408, 449, 494, 544, 598, 658, 724, 796,
    876, 963, 1060, 1166, 1282, 1411, 1552, 1707, 1878, 2066,
    2272, 2499, 2749, 3024, 3327, 3660, 4026, 4428, 4871, 5358,
    5894, 6484, 7132, 7845, 8630, 9493, 10442, 11487, 12635, 13899,
    15289, 16818, 18500, 20350, 22385, 24623, 27086, 29794, 32767]

/-- Table lookup `STEP_TABLE[i]`.  Every lookup the source performs uses an
index that has been clamped into `[0, 88]`, so the default value is never
produced on the paths the source executes. -/
def stepTable (i : Nat) : Nat := STEP_TABLE.getD i 0

/-- Constant `INDEX_TABLE` from `util.rs`: 16 signed step-index deltas. -/
def INDEX_TABLE : List Int := [
    -1, -1, -1, -1, 2, 4, 6, 8,
    -1, -1, -1, -1, 2, 4, 6, 8]

/-- Table lookup `INDEX_TABLE[i]`; the source always indexes it with a
value below 16. -/
def indexTable (i : Nat) : Int := INDEX_TABLE.getD i 0

/-- Struct `ADPCMChannel` from `util.rs`: per-channel predictor state
(`pcmdata: i32`, `index: usize`). -/
structure ADPCMChannel where
  pcmdata : Int
  index : Nat
deriving DecidableEq, Repr

/-- Function `clamp_sample` from `util.rs`:
`input.clamp(i16::MIN as i32, i16::MAX as i32)`. -/
def clamp_sample (input : Int) : Int := max (-32768) (min input 32767)

/-- Function `clamp_table_index` from `util.rs`:
`index.clamp(0, STEP_TABLE.len() as isize - 1) as usize`. -/
def clamp_table_index (index : Int) : Nat := (max 0 (min index 88)).toNat

/-- Function `calculate_delta` from `util.rs`.  `step` is a `u16` widened
to `i32`; since it is non-negative the source's `i32` right shifts equal
`Nat` right shifts, and the running `i32` sum stays below `2^17`, far from
overflow, so the magnitude is accumulated as a `Nat` and negated at the
end exactly as the source negates its accumulator when bit 3 is set. -/
def calculate_delta (step : Nat) (code : Nat) : Int :=
  let mag : Nat :=
    (step >>> 3)
    + (if code &&& 1 ≠ 0 then step >>> 2 else 0)
    + (if code &&& 2 ≠ 0 then step >>> 1 else 0)
    + (if code &&& 4 ≠ 0 then step else 0)
  if code &&& 8 ≠ 0 then -(mag : Int) else (mag : Int)

/-! ## Decoder (`decoder.rs`) -/

/-- Struct `XboxADPCMDecoder` from `decoder.rs`, minus the sink reference
(the sink is passed explicitly to each method).  `buffer` holds the live
prefix `self.buffer[..self.buffer_size]` of the fixed 288-byte array. -/
structure DecoderState where
  num_channels : Nat
  buffer : List Nat
deriving DecidableEq, Repr

/-- Trait `XboxADPCMDecodeSink` from `decoder.rs`, as a record of
state-passing operations.  `write` receives, as in the source, the full
`[[i16; 64]; 8]` array of all `MAX_AUDIO_CHANNEL_COUNT` channels. -/
structure DecodeSink (E σ : Type) where
  reserve : σ → Nat → Except E σ
  write : σ → List (List Int) → Except E σ

/-- Constructor `XboxADPCMDecoder::new` (sans the `num_channels` range
assertion, which theorems impose as a hypothesis). -/
def XboxADPCMDecoder_new (num_channels : Nat) : DecoderState :=
  { num_channels := num_channels, buffer := [] }

/-- The `as i16` cast of a `u16` header value (`((low) | (high << 8)) as i16`
in `decode_block`); the argument is always below `2^16`. -/
def u16_to_i16 (x : Nat) : Int :=
  if x < 32768 then (x : Int) else (x : Int) - 65536

/-- Header parse for channel `ch` in `decode_block`: the little-endian
`u16` reference sample reinterpreted as `i16`, and the step-index byte
clamped into table range.  (The fourth header byte is never read.) -/
def decode_header (buf : List Nat) (ch : Nat) : Int × Nat :=
  (u16_to_i16 (buf.getD (4 * ch) 0 + 256 * buf.getD (4 * ch + 1) 0),
   clamp_table_index (buf.getD (4 * ch + 2) 0))

/-- One iteration of the inner sample loop of `decode_block`: from the
channel state (`last_samples[ch]`, `last_step_index[ch]`) and one 4-bit
code, produce the updated state and the emitted sample.  The new sample is
computed with the pre-update step index, exactly as in the source. -/
def decode_step (st : Int × Nat) (nibble : Nat) : (Int × Nat) × Int :=
  let new_sample := clamp_sample (st.1 + calculate_delta (stepTable st.2) nibble)
  ((new_sample, clamp_table_index ((st.2 : Int) + indexTable nibble)), new_sample)

/-- Run `decode_step` over a list of codes, collecting the samples in
order (the source appends each `new_sample` to `samples_to_output`). -/
def decode_run (st : Int × Nat) : List Nat → (Int × Nat) × List Int
  | [] => (st, [])
  | nib :: rest =>
      let s := decode_step st nib
      let r := decode_run s.1 rest
      (r.1, s.2 :: r.2)

/-- The little-endian `u32` of four bytes (`u32::from_le_bytes`). -/
def le32 (b0 b1 b2 b3 : Nat) : Nat :=
  b0 + 256 * b1 + 65536 * b2 + 16777216 * b3

/-- The eight 4-bit codes extracted from a chunk word in `decode_block`
(`data & 0xF` then `data >>= 4`, eight times): least-significant nibble
first. -/
def word_nibbles (data : Nat) : List Nat :=
  (List.range 8).map (fun s => data / 16 ^ s % 16)

/-- The chunk word for chunk `c` of channel `ch` in `decode_block`: the
source reads 4 bytes at `input_offset`, which at that point of the loop
equals `4 * num_ch + 4 * (c * num_ch + ch)` (the header region is
`4 * num_ch` bytes and `input_offset` advances by 4 per channel per
chunk, chunks outermost). -/
def channel_word (buf : List Nat) (num_ch ch c : Nat) : Nat :=
  let off := 4 * num_ch + 4 * (c * num_ch + ch)
  le32 (buf.getD off 0) (buf.getD (off + 1) 0)
    (buf.getD (off + 2) 0) (buf.getD (off + 3) 0)

/-- Chunk loop of `decode_block` for one channel, starting from chunk `c`:
the per-channel state threads through the chunks in order.  (In the source
the chunk loop interleaves all channels, but each channel's state and
output are touched only by that channel's iterations, so the per-channel
result is this sequential run.) -/
def decode_channel_go (buf : List Nat) (num_ch ch : Nat) :
    (Int × Nat) → Nat → Nat → List Int
  | _, _, 0 => []
  | st, c, count + 1 =>
      let r := decode_run st (word_nibbles (channel_word buf num_ch ch c))
      r.2 ++ decode_channel_go buf num_ch ch r.1 (c + 1) count

/-- The 64 samples `decode_block` produces for channel `ch` (the source
stores chunk `c`'s eight samples at output offsets `c * 8 .. c * 8 + 8`,
i.e. in chunk order, matching this concatenation). -/
def decode_channel (buf : List Nat) (num_ch ch : Nat) : List Int :=
  decode_channel_go buf num_ch ch (decode_header buf ch) 0 CHUNKS_PER_BLOCK

/-- The full `samples_to_output` array handed to the sink by
`decode_block`: channels beyond `num_channels` keep their zero
initialisation. -/
def block_output (st : DecoderState) : List (List Int) :=
  (List.range MAX_AUDIO_CHANNEL_COUNT).map (fun ch =>
    if ch < st.num_channels then decode_channel st.buffer st.num_channels ch
    else List.replicate SAMPLES_PER_ADPCM_BLOCK 0)

/-- Method `decode_block` from `decoder.rs`.  On a successful write the
buffer is cleared (`self.buffer_size = 0`); when the write fails the error
is returned and the state — in particular the full block's bytes — is left
untouched. -/
def decode_block {E σ : Type} (sink : DecodeSink E σ) (st : DecoderState)
    (s : σ) : DecoderState × Except E σ :=
  match sink.write s (block_output st) with
  | .error e => (st, .error e)
  | .ok s' => ({ st with buffer := [] }, .ok s')

/-- Outcome of a `decode`/`encode` call: `crashed` models abnormal
termination of the source (an out-of-bounds index or a failed `assert!`,
i.e. a Rust panic); `out` carries the mutated state and the `Result`. -/
inductive RunOutcome (St E σ : Type) where
  | crashed
  | out (st : St) (r : Except E σ)

/-- The byte-loading `while` loop of `XboxADPCMDecoder::decode`.  The
source computes `bytes_that_can_be_loaded = bytes_free.min(input_len)` —
the total input length, not the bytes still unloaded — and then reads
`input[bytes_loaded + b]` for `b` below that count, which indexes out of
bounds (a panic, modelled as `crashed`) whenever
`input_len < bytes_loaded + bytes_that_can_be_loaded`.  The fuel argument
only bounds the iteration count; callers pass `input.length + 2`, which
exceeds the number of iterations the source loop can perform (each
iteration loads at least one byte except, at most once, a first iteration
on an already-full buffer). -/
def decode_loop {E σ : Type} (sink : DecodeSink E σ) :
    Nat → DecoderState → σ → List Nat → Nat → RunOutcome DecoderState E σ
  | 0, _, _, _, _ => .crashed
  | fuel + 1, st, s, input, bytes_loaded =>
      if bytes_loaded = input.length then .out st (.ok s)
      else
        let max_buffer_size := ADPCM_BLOCK_SIZE * st.num_channels
        let bytes_free := max_buffer_size - st.buffer.length
        let n := min bytes_free input.length
        if input.length < bytes_loaded + n then .crashed
        else
          let st1 : DecoderState :=
            { st with buffer := st.buffer ++ (input.drop bytes_loaded).take n }
          if st1.buffer.length = max_buffer_size then
            match decode_block sink st1 s with
            | (st2, .error e) => .out st2 (.error e)
            | (st2, .ok s') => decode_loop sink fuel st2 s' input (bytes_loaded + n)
          else
            decode_loop sink fuel st1 s input (bytes_loaded + n)

/-- Method `XboxADPCMDecoder::decode` from `decoder.rs`: the reserve hint
(rounding the total byte count up to whole multi-channel blocks, converted
to samples), then the loading loop. -/
def decode {E σ : Type} (sink : DecodeSink E σ) (st : DecoderState) (s : σ)
    (input : List Nat) : RunOutcome DecoderState E σ :=
  let max_buffer_size := ADPCM_BLOCK_SIZE * st.num_channels
  let total_bytes_after_this := input.length + st.buffer.length
  let blocks_to_reserve :=
    (total_bytes_after_this + (max_buffer_size - 1)) / max_buffer_size
  match (if blocks_to_reserve > 0 then
          sink.reserve s (blocks_to_reserve * SAMPLES_PER_ADPCM_BLOCK)
        else .ok s) with
  | .error e => .out st (.error e)
  | .ok s' => decode_loop sink (input.length + 2) st s' input 0

/-! ## Encoder (`encoder.rs`) -/

/-- Constant `PCM_BUFFER_EXTRA` from `encoder.rs`. -/
def PCM_BUFFER_EXTRA : Nat := 2

/-- Constant `PCM_BUFFER_CAPACITY` from `encoder.rs` (`64 + 2 = 66`). -/
def PCM_BUFFER_CAPACITY : Nat := SAMPLES_PER_ADPCM_BLOCK + PCM_BUFFER_EXTRA

/-- Trait `XboxADPCMEncodeSink` from `encoder.rs`, as a record of
state-passing operations. -/
structure EncodeSink (E σ : Type) where
  reserve : σ → Nat → Except E σ
  write : σ → List Nat → Except E σ

/-- Struct `XboxADPCMEncoder` from `encoder.rs`, minus the sink reference.
`channels` holds the first `num_channels` entries of the source's
`[ADPCMChannel; 8]` array (the remaining entries are never read or
written), and `buffer` holds, for each of those channels, the live prefix
`self.buffer[ch][..self.buffer_size]` of the fixed 66-sample row (all rows
share the single `buffer_size`, so all lists have equal length). -/
structure EncoderState where
  channels : List ADPCMChannel
  num_channels : Nat
  lookahead : Nat
  buffer : List (List Int)
  predictors_initialized : Bool
deriving DecidableEq, Repr

/-- Constructor `XboxADPCMEncoder::new` (sans the `num_channels` range
assertion, which theorems impose as a hypothesis); channel states start at
their `Default` value `{ pcmdata: 0, index: 0 }`. -/
def XboxADPCMEncoder_new (num_channels : Nat) (lookahead : Nat) : EncoderState :=
  { channels := List.replicate num_channels ⟨0, 0⟩,
    num_channels := num_channels,
    lookahead := lookahead,
    buffer := List.replicate num_channels [],
    predictors_initialized := false }

/-- The `buffer_size` field of the source encoder: the common length of
the live buffer rows (`num_channels ≥ 1` always holds, so row 0 exists). -/
def buffer_size (st : EncoderState) : Nat := (st.buffer.headD []).length

/-- The first-guess code of `calculate_minimum_error`:
`((delta << 2) as u32 / step as u32).min(7)`, with `0x8` or-ed in for a
negative delta.  `|delta| ≤ 65535` there, so `delta << 2` does not
overflow `i32` and the `u32` division is `Nat` division; the or with
`0x8` equals adding 8 because the other operand is at most 7. -/
def quantize_nibble (step : Nat) (delta : Int) : Nat :=
  if delta < 0 then min ((4 * (-delta).toNat) / step) 7 + 8
  else min ((4 * delta.toNat) / step) 7

/-- One candidate evaluation step of the `for nibble2 in 0..=0xF` loop in
`calculate_minimum_error`, parameterised by the recursive future-error
function `next` (which the source's closure `calculate_minimum_error_next`
provides).  The accumulator is `(min_error, best_nibble)`; a candidate is
skipped when it equals the first-guess code, when its immediate error is
already `≥ min_error` (the branch-and-bound prune), or when its total
error is `≥ min_error`. -/
def candidate_step (step : Nat) (pcmdata sample : Int) (nibble : Nat)
    (next : Int → Nat → Nat) (acc : Nat × Nat) (nibble2 : Nat) : Nat × Nat :=
  if nibble2 = nibble then acc
  else
    let pcmdata_b := clamp_sample (pcmdata + calculate_delta step nibble2)
    let error := (pcmdata_b - sample).natAbs ^ 2
    if acc.1 ≤ error then acc
    else
      let error2 := error + next pcmdata_b nibble2
      if acc.1 ≤ error2 then acc
      else (error2, nibble2)

/-- Function `calculate_minimum_error` from `encoder.rs`, with the
`lookahead` recursion depth as first argument (the recursion is structural
in it).  Returns the pair (minimum error, best nibble) — the source
returns the error and writes the nibble through `&mut best_nibble`.  The
error sums are exact integers (see the header comment), modelled as `Nat`.
Every step-table and sample access of the source is modelled by a total
lookup with default; a separate checked variant below shows the defaults
are never hit on the source's call pattern. -/
def calculate_minimum_error :
    Nat → Nat → Int → Int → List Int → Nat × Nat
  | lookahead, index, pcmdata, sample, samples =>
    let step := stepTable index
    let nibble := quantize_nibble step (sample - pcmdata)
    let pcmdata_a := clamp_sample (pcmdata + calculate_delta step nibble)
    let min_error := (pcmdata_a - sample).natAbs ^ 2
    match lookahead with
    | 0 => (min_error, nibble)
    | l + 1 =>
        let next := fun (pcm : Int) (nib : Nat) =>
          (calculate_minimum_error l
            (clamp_table_index ((index : Int) + indexTable (nib % 8)))
            pcm (samples.headD 0) samples.tail).1
        (List.range 16).foldl
          (candidate_step step pcmdata sample nibble next)
          (min_error + next pcmdata_a nibble, nibble)

/-- Function `encode_sample` from `encoder.rs`: runs the minimum-error
search with the lookahead capped at the number of remaining future
samples, then advances the channel's step index and predicted sample with
the chosen nibble (the delta uses the pre-search step). -/
def encode_sample (pchan : ADPCMChannel) (lookahead : Nat)
    (samples : List Int) : Nat × ADPCMChannel :=
  let current_sample := samples.headD 0
  let next_samples := samples.tail
  let step := stepTable pchan.index
  let nibble := (calculate_minimum_error (min lookahead next_samples.length)
    pchan.index pchan.pcmdata current_sample next_samples).2
  (nibble,
   { pcmdata := clamp_sample (pchan.pcmdata + calculate_delta step nibble),
     index := clamp_table_index ((pchan.index : Int) + indexTable (nibble % 8)) })

/-- The inner byte loop of `encode_chunks` for one channel and one chunk:
byte `i` packs the codes of samples `chunk_start + 2i` (low nibble) and
`chunk_start + 2i + 1` (high nibble); `samples` slices are modelled by
`List.drop`.  Produces `count` bytes starting at pair index `i`. -/
def encode_bytes_go (lookahead : Nat) (buf : List Int) (chunk_start : Nat) :
    Nat → Nat → ADPCMChannel → List Nat × ADPCMChannel
  | _, 0, pchan => ([], pchan)
  | i, count + 1, pchan =>
      let low := encode_sample pchan lookahead (buf.drop (chunk_start + i * 2))
      let high := encode_sample low.2 lookahead (buf.drop (chunk_start + i * 2 + 1))
      let rest := encode_bytes_go lookahead buf chunk_start (i + 1) count high.2
      ((low.1 ||| high.1 <<< 4) :: rest.1, rest.2)

/-- The channel loop of `encode_chunks` for one chunk: each channel
contributes `SAMPLES_PER_CHUNK / 2 = 4` bytes, and its own predictor
state.  The source writes channel `ch`'s bytes at offsets
`stride * chunk + ch * 4 + i` with `stride = 4 * num_channels`, i.e. the
chunk's byte groups are laid out in channel order — this concatenation. -/
def encode_chunk_channels (lookahead chunk : Nat) :
    List (List Int × ADPCMChannel) → List Nat × List ADPCMChannel
  | [] => ([], [])
  | (buf, pchan) :: rest =>
      let b := encode_bytes_go lookahead buf (1 + chunk * SAMPLES_PER_CHUNK)
        0 (SAMPLES_PER_CHUNK / 2) pchan
      let r := encode_chunk_channels lookahead chunk rest
      (b.1 ++ r.1, b.2 :: r.2)

/-- The chunk loop of `encode_chunks`, starting at chunk index `chunk` and
running `count` chunks: chunk byte groups are produced in chunk order
(offsets `stride * chunk`), channel states threading through. -/
def encode_chunks_go (lookahead : Nat) (bufs : List (List Int)) :
    Nat → Nat → List ADPCMChannel → List Nat × List ADPCMChannel
  | _, 0, pchans => ([], pchans)
  | chunk, count + 1, pchans =>
      let c := encode_chunk_channels lookahead chunk (bufs.zip pchans)
      let r := encode_chunks_go lookahead bufs (chunk + 1) count c.2
      (c.1 ++ r.1, r.2)

/-- Method `encode_chunks` from `encoder.rs`: all `CHUNKS_PER_BLOCK`
chunks.  Returns the body bytes (the slice the source fills) and the
updated channel states. -/
def encode_chunks (lookahead : Nat) (bufs : List (List Int))
    (pchans : List ADPCMChannel) : List Nat × List ADPCMChannel :=
  encode_chunks_go lookahead bufs 0 CHUNKS_PER_BLOCK pchans

/-- The `as u16` bit pattern of an `i16` sample, used for the header bytes
(`(s & 0xFF) as u8` and `((s >> 8) & 0xFF) as u8` are its two
little-endian bytes, since `s` is an `i16` value in two's complement). -/
def i16_to_u16 (s : Int) : Nat := (s % 65536).toNat

/-- The 4-byte block header `encode_block` writes for one channel: the
first buffered sample uncompressed in little-endian, the channel's step
index narrowed `as u8`, and the untouched fourth byte (the output array is
zero-initialised). -/
def header_bytes (row : List Int) (pchan : ADPCMChannel) : List Nat :=
  let u := i16_to_u16 (row.headD 0)
  [u % 256, u / 256, pchan.index % 256, 0]

/-- The channel states after the header loop of `encode_block`: each
channel's `pcmdata` is seeded with its uncompressed first buffered sample
(`self.channels[ch].pcmdata = s as i32`). -/
def seeded_channels (st : EncoderState) : List ADPCMChannel :=
  List.zipWith
    (fun (row : List Int) (pchan : ADPCMChannel) =>
      { pchan with pcmdata := row.headD 0 }) st.buffer st.channels

/-- The byte array `encode_block` hands to the sink
(`bytes_to_write[..total_bytes_to_write]`): the per-channel headers (the
header loop writes channel `ch`'s four bytes at offsets `4 * ch ..`, in
channel order), then the chunk bytes (`encode_chunks` fills the slice
starting at `num_channels * 4`). -/
def encode_block_bytes (st : EncoderState) : List Nat :=
  (List.zipWith header_bytes st.buffer (seeded_channels st)).flatten
    ++ (encode_chunks st.lookahead st.buffer (seeded_channels st)).1

/-- Method `encode_block` from `encoder.rs`.  The header loop also seeds
each channel's `pcmdata` with its uncompressed first sample before
`encode_chunks` runs; afterwards the last `PCM_BUFFER_EXTRA` samples of
each row are moved to its front (`buffer_size` becomes 2).  All state
mutation happens before the single sink write — `self.sink.write(..)` is
the method's final expression — so a write failure leaves exactly the
post-mutation state. -/
def encode_block {E σ : Type} (sink : EncodeSink E σ) (st : EncoderState)
    (s : σ) : EncoderState × Except E σ :=
  let st1 : EncoderState :=
    { st with
      channels := (encode_chunks st.lookahead st.buffer (seeded_channels st)).2,
      buffer := st.buffer.map (fun row =>
        ((row.drop (PCM_BUFFER_CAPACITY - PCM_BUFFER_EXTRA)).take PCM_BUFFER_EXTRA)) }
  (st1, sink.write s (encode_block_bytes st))

/-- The decaying-average loop of `initialize_predictors`:
`avg = (avg + (this_sample - prev_sample)) / 8` over consecutive samples
of the live buffer row, with `i32` (truncating) division. -/
def decaying_avg_go (prev : Int) (rest : List Int) (avg : Int) : Int :=
  match rest with
  | [] => avg
  | x :: rest => decaying_avg_go x rest (Int.tdiv (avg + (x - prev)) 8)

/-- The decaying average of a buffer row (the loop runs for
`i in 1..buffer_size`, so an empty or one-sample row leaves `avg = 0`). -/
def decaying_avg (row : List Int) : Int :=
  match row with
  | [] => 0
  | x :: rest => decaying_avg_go x rest 0

/-- The `table_avg` value of `initialize_predictors`: the midpoint of two
consecutive step-table entries, with `i32` (truncating) division — both
entries are non-negative, so this equals their floor midpoint. -/
def table_midpoint (i : Nat) : Int :=
  Int.tdiv ((stepTable i : Int) + (stepTable (i + 1) : Int)) 2

/-- The initial-step-index loop of `initialize_predictors`, searching
upward from index `i` for at most `count` more indices:
`initial_index` is the first `i` with `avg < (t[i] + t[i+1]) / 2`
and stays at the last table index when the loop never breaks. -/
def initial_index_go (avg : Int) : Nat → Nat → Nat
  | _, 0 => STEP_TABLE.length - 1
  | i, count + 1 =>
      if avg < table_midpoint i then i
      else initial_index_go avg (i + 1) count

/-- The seed step index `initialize_predictors` chooses for a channel with
decaying average `avg` (the source loop runs `i in 0..STEP_TABLE.len()-1`). -/
def initial_index (avg : Int) : Nat :=
  initial_index_go avg 0 (STEP_TABLE.length - 1)

/-- Method `initialize_predictors` from `encoder.rs`: a no-op while the
flag is set; otherwise seeds channel `c` (for `c` below `num_channels`,
i.e. every modelled channel) from buffer row `c` with predicted sample 0
and the chosen initial index, then sets the flag. -/
def init_predictors (st : EncoderState) : EncoderState :=
  if st.predictors_initialized then st
  else
    { st with
      channels := st.buffer.map (fun row =>
        { pcmdata := 0, index := initial_index (decaying_avg row) }),
      predictors_initialized := true }

/-- The sample-loading step of the `encode` loop: append the next `n`
samples of each input channel (starting at `samples_loaded`) to the
corresponding buffer row. -/
def load_samples (bufs : List (List Int)) (input : List (List Int))
    (loaded n : Nat) : List (List Int) :=
  List.zipWith (fun row inp => row ++ (inp.drop loaded).take n) bufs input

/-- The sample-processing `while` loop of `XboxADPCMEncoder::encode`.
Unlike the decoder's loop, the source computes
`samples_free.min(samples_left_to_load)` with the samples still unloaded,
so no out-of-bounds read can occur here.  Fuel is as in `decode_loop`. -/
def encode_loop {E σ : Type} (sink : EncodeSink E σ) :
    Nat → EncoderState → σ → List (List Int) → Nat → RunOutcome EncoderState E σ
  | 0, _, _, _, _ => .crashed
  | fuel + 1, st, s, input, samples_loaded =>
      let sample_count := (input.headD []).length
      if samples_loaded = sample_count then .out st (.ok s)
      else
        let samples_left_to_load := sample_count - samples_loaded
        let samples_free := PCM_BUFFER_CAPACITY - buffer_size st
        let n := min samples_free samples_left_to_load
        let st1 : EncoderState :=
          { st with buffer := load_samples st.buffer input samples_loaded n }
        if buffer_size st1 = PCM_BUFFER_CAPACITY then
          let st2 := init_predictors st1
          match encode_block sink st2 s with
          | (st3, .error e) => .out st3 (.error e)
          | (st3, .ok s') => encode_loop sink fuel st3 s' input (samples_loaded + n)
        else
          encode_loop sink fuel st1 s input (samples_loaded + n)

/-- Method `XboxADPCMEncoder::encode` from `encoder.rs`: the channel-count
and sample-count assertions (panics, modelled as `crashed`), the reserve
hint (total buffered + incoming samples rounded up to whole blocks, in
bytes for all channels), then the loading loop. -/
def encode {E σ : Type} (sink : EncodeSink E σ) (st : EncoderState) (s : σ)
    (input : List (List Int)) : RunOutcome EncoderState E σ :=
  if st.num_channels ≠ input.length then .crashed
  else if input.any (fun chan => chan.length ≠ (input.headD []).length) then .crashed
  else
    let sample_count := (input.headD []).length
    let total_samples_after_this := sample_count + buffer_size st
    match (if total_samples_after_this ≠ 0 then
            sink.reserve s
              ((total_samples_after_this + (SAMPLES_PER_ADPCM_BLOCK - 1)) /
                SAMPLES_PER_ADPCM_BLOCK * ADPCM_BLOCK_SIZE * st.num_channels)
          else .ok s) with
    | .error e => .out st (.error e)
    | .ok s' => encode_loop sink (sample_count + 2) st s' input 0

/-- Method `XboxADPCMEncoder::reset` from `encoder.rs`: drop all buffered
samples and clear the predictors flag. -/
def encoder_reset (st : EncoderState) : EncoderState :=
  { st with predictors_initialized := false,
            buffer := st.buffer.map (fun _ => []) }

/-- The zero-fill loop of `finish`: every buffer row is padded with
zero-valued samples (silence) up to `PCM_BUFFER_CAPACITY`, and
`buffer_size` becomes `PCM_BUFFER_CAPACITY`. -/
def pad_state (st : EncoderState) : EncoderState :=
  { st with buffer := st.buffer.map (fun row =>
      row ++ List.replicate (PCM_BUFFER_CAPACITY - row.length) 0) }

/-- Method `XboxADPCMEncoder::finish` from `encoder.rs`: if any samples
are buffered, initialise the predictors (if not yet done), zero-pad every
buffer row to full capacity, encode that one block, and reset; a failed
block write propagates before the reset runs.  With an empty buffer only
the reset happens. -/
def finish {E σ : Type} (sink : EncodeSink E σ) (st : EncoderState)
    (s : σ) : EncoderState × Except E σ :=
  if buffer_size st ≠ 0 then
    match encode_block sink (pad_state (init_predictors st)) s with
    | (st3, .error e) => (st3, .error e)
    | (st3, .ok s') => (encoder_reset st3, .ok s')
  else
    (encoder_reset st, .ok s)

/-- The sequence of 4-bit codes one channel's samples are compressed to,
in sample order: `count` successive `encode_sample` calls on the sample
slices starting at buffer positions `pos, pos + 1, …`, threading the
channel state.  `encode_chunks` performs exactly these calls for positions
`1 .. 65` of each channel, interleaved chunk-by-chunk across channels; the
theorems below prove that its byte output is this sequence packed into the
block layout. -/
def channel_codes (lookahead : Nat) (buf : List Int) :
    ADPCMChannel → Nat → Nat → List Nat × ADPCMChannel
  | pchan, _, 0 => ([], pchan)
  | pchan, pos, count + 1 =>
      let r := encode_sample pchan lookahead (buf.drop pos)
      let rest := channel_codes lookahead buf r.2 (pos + 1) count
      (r.1 :: rest.1, rest.2)

/-! ## Checked variants of the lookahead search

The pipeline definitions above use total lookups (`getD`, total division);
the source instead panics on an out-of-range slice index and on division
by zero.  The variants below return `none` exactly where the source would
panic — at a step-table access out of `[0, 88]`, at the `u32` division
when the step is zero, and at a `samples[0]` access on an empty slice —
and are proved to return `some` of the total variants' results on the
source's call pattern (`lookahead ≤ samples.length`, clamped index). -/

/-- Candidate-evaluation step of `calculate_minimum_error`, checked: the
future-error function may fail, and its failure propagates; when the
branch-and-bound prune or the equal-nibble skip fires the future-error
function is not called, exactly as the source never recurses there. -/
def candidate_step_chk (step : Nat) (pcmdata sample : Int) (nibble : Nat)
    (next : Int → Nat → Option Nat) (acc : Nat × Nat) (nibble2 : Nat) :
    Option (Nat × Nat) :=
  if nibble2 = nibble then some acc
  else
    let pcmdata_b := clamp_sample (pcmdata + calculate_delta step nibble2)
    let error := (pcmdata_b - sample).natAbs ^ 2
    if acc.1 ≤ error then some acc
    else
      match next pcmdata_b nibble2 with
      | none => none
      | some e2 =>
          let error2 := error + e2
          if acc.1 ≤ error2 then some acc else some (error2, nibble2)

/-- The candidate fold of the checked search: a failure, once reached,
propagates through the remaining candidates. -/
def fold_step_chk (step : Nat) (pcmdata sample : Int) (nibble : Nat)
    (next : Int → Nat → Option Nat) (acc : Option (Nat × Nat)) (nibble2 : Nat) :
    Option (Nat × Nat) :=
  match acc with
  | none => none
  | some a => candidate_step_chk step pcmdata sample nibble next a nibble2

/-- Checked `calculate_minimum_error`: `none` marks a panic of the
source (step-table index out of range, zero-step division, or an
out-of-bounds `samples[0]` in the recursion). -/
def calculate_minimum_error_chk :
    Nat → Nat → Int → Int → List Int → Option (Nat × Nat)
  | lookahead, index, pcmdata, sample, samples =>
    match STEP_TABLE[index]? with
    | none => none
    | some step =>
      if step = 0 then none
      else
        let nibble := quantize_nibble step (sample - pcmdata)
        let pcmdata_a := clamp_sample (pcmdata + calculate_delta step nibble)
        let min_error := (pcmdata_a - sample).natAbs ^ 2
        match lookahead with
        | 0 => some (min_error, nibble)
        | l + 1 =>
            match samples.head? with
            | none => none
            | some s0 =>
                let next := fun (pcm : Int) (nib : Nat) =>
                  (calculate_minimum_error_chk l
                    (clamp_table_index ((index : Int) + indexTable (nib % 8)))
                    pcm s0 samples.tail).map Prod.fst
                match next pcmdata_a nibble with
                | none => none
                | some e0 =>
                    (List.range 16).foldl
                      (fold_step_chk step pcmdata sample nibble next)
                      (some (min_error + e0, nibble))

/-- Checked `encode_sample`: `none` marks a panic of the source
(`samples[0]` on an empty slice, step-table access out of range, or a
failure inside the search). -/
def encode_sample_chk (pchan : ADPCMChannel) (lookahead : Nat)
    (samples : List Int) : Option (Nat × ADPCMChannel) :=
  match samples.head? with
  | none => none
  | some current_sample =>
    let next_samples := samples.tail
    match STEP_TABLE[pchan.index]? with
    | none => none
    | some step =>
      match calculate_minimum_error_chk (min lookahead next_samples.length)
          pchan.index pchan.pcmdata current_sample next_samples with
      | none => none
      | some r =>
          some (r.2,
            { pcmdata := clamp_sample (pchan.pcmdata + calculate_delta step r.2),
              index := clamp_table_index ((pchan.index : Int) + indexTable (r.2 % 8)) })

/-! ## The block format, as the specification describes it -/

/-- Packing of a code sequence into bytes, two codes per byte, the first
of each pair in the low nibble and the second in the high nibble — the
specification's "codes ordered low-nibble-then-high-nibble per byte". -/
def pack_pairs : List Nat → List Nat
  | a :: b :: rest => (a ||| b <<< 4) :: pack_pairs rest
  | _ => []

/-- The specification's binary block format, assembled from per-channel
headers and per-channel code sequences: for each channel in sequence a
4-byte header — little-endian `uint16` reference sample (raw), `uint8`
step index, reserved byte 0 — followed by the packed 4-bit codes, two per
byte low nibble first, grouped into `CHUNKS_PER_BLOCK` chunk groups of
`SAMPLES_PER_CHUNK / 2` bytes per channel (chunk group `k` of a channel
packs that channel's codes `k*8 .. k*8+8`), chunk-major across the whole
block: each chunk group carries every channel's bytes in channel order. -/
def spec_format_block (hdrs : List (Int × Nat)) (codes : List (List Nat)) :
    List Nat :=
  (hdrs.map (fun h =>
    [i16_to_u16 h.1 % 256, i16_to_u16 h.1 / 256, h.2, 0])).flatten
  ++ ((List.range CHUNKS_PER_BLOCK).map (fun chunk =>
        (codes.map (fun cs =>
          pack_pairs ((cs.drop (chunk * SAMPLES_PER_CHUNK)).take SAMPLES_PER_CHUNK))).flatten)).flatten

/-! ## The sink implementations shipped with the crate, and test fixtures -/

/-- The `impl XboxADPCMDecodeSink for [Vec<i16>; N]` from `decoder.rs`
(for `N = k`): `write` appends, for each of the `k` channels, that
channel's 64 samples; `reserve` only pre-allocates.  Its error type is
`()` and it never fails. -/
def vec_decode_sink (k : Nat) : DecodeSink Unit (List (List Int)) :=
  { reserve := fun s _ => .ok s,
    write := fun s out => .ok (List.zipWith (· ++ ·) s (out.take k)) }

/-- The `impl XboxADPCMEncodeSink for Vec<u8>` from `encoder.rs`: `write`
appends the bytes; `reserve` only pre-allocates.  It never fails. -/
def vec_encode_sink : EncodeSink Unit (List Nat) :=
  { reserve := fun s _ => .ok s,
    write := fun s bytes => .ok (s ++ bytes) }

/-! ## Helper lemmas: clamps, tables, casts -/

lemma clamp_table_index_le (x : Int) : clamp_table_index x ≤ 88 := by
  unfold clamp_table_index
  omega

lemma clamp_table_index_coe (n : Nat) (h : n ≤ 88) :
    clamp_table_index (n : Int) = n := by
  unfold clamp_table_index
  omega

lemma clamp_sample_lb (x : Int) : -32768 ≤ clamp_sample x := by
  unfold clamp_sample
  omega

lemma clamp_sample_ub (x : Int) : clamp_sample x ≤ 32767 := by
  unfold clamp_sample
  omega

lemma stepTable_ge_seven : ∀ i < 89, 7 ≤ stepTable i := by decide

lemma initial_index_go_le (avg : Int) :
    ∀ count i, i + count ≤ 88 → initial_index_go avg i count ≤ 88 := by
  intro count
  induction count with
  | zero => intro i _; simp [initial_index_go, STEP_TABLE]
  | succ m ih =>
      intro i hi
      unfold initial_index_go
      split
      · omega
      · exact ih (i + 1) (by omega)

lemma initial_index_le (avg : Int) : initial_index avg ≤ 88 := by
  have h : STEP_TABLE.length - 1 = 88 := by decide
  unfold initial_index
  rw [h]
  exact initial_index_go_le avg 88 0 (by omega)

lemma i16_to_u16_lt (s : Int) : i16_to_u16 s < 65536 := by
  unfold i16_to_u16
  omega

lemma u16_i16_roundtrip (s : Int) (h1 : -32768 ≤ s) (h2 : s ≤ 32767) :
    u16_to_i16 (i16_to_u16 s) = s := by
  unfold u16_to_i16 i16_to_u16
  split <;> omega

/-- A decode sink whose `write` always fails (used to exercise the error
path of `decode_block`). -/
def fail_decode_sink : DecodeSink Unit Unit :=
  { reserve := fun s _ => .ok s, write := fun _ _ => .error () }

/-- An encode sink whose `write` always fails (used to exercise the error
path of `encode_block`). -/
def fail_encode_sink : EncodeSink Unit Unit :=
  { reserve := fun s _ => .ok s, write := fun _ _ => .error () }

/-! ## Helper lemmas: list utilities -/

lemma flatten_length_uniform {α : Type} (L : Nat) :
    ∀ ll : List (List α), (∀ x ∈ ll, x.length = L) →
      ll.flatten.length = ll.length * L := by
  intro ll
  induction ll with
  | nil => intro _; simp
  | cons x xs ih =>
      intro h
      simp only [List.flatten_cons, List.length_append, List.length_cons,
        h x (List.mem_cons_self x xs), ih (fun y hy => h y (List.mem_cons_of_mem x hy))]
      ring

lemma zipWith_getD {α β γ : Type} (f : α → β → γ) :
    ∀ (a : List α) (b : List β) (i : Nat) (d : γ) (da : α) (db : β),
      i < a.length → i < b.length →
      (List.zipWith f a b).getD i d = f (a.getD i da) (b.getD i db) := by
  intro a
  induction a with
  | nil => intro b i d da db h1 _; simp at h1
  | cons x xs ih =>
      intro b i d da db h1 h2
      cases b with
      | nil => simp at h2
      | cons y ys =>
          cases i with
          | zero => rfl
          | succ j =>
              simp only [List.zipWith_cons_cons, List.getD_cons_succ]
              exact ih ys j d da db (by simpa using h1) (by simpa using h2)

/-! ## Helper lemmas: shapes of the encoder pipeline -/

lemma encode_bytes_go_length (l : Nat) (buf : List Int) (cs : Nat) :
    ∀ count i p, (encode_bytes_go l buf cs i count p).1.length = count := by
  intro count
  induction count with
  | zero => intro i p; rfl
  | succ m ih =>
      intro i p
      simp only [encode_bytes_go, List.length_cons, ih]

lemma mem_zipWith_imp {α β γ : Type} (f : α → β → γ) :
    ∀ (a : List α) (b : List β), ∀ c ∈ List.zipWith f a b, ∃ x y, c = f x y := by
  intro a
  induction a with
  | nil => intro b c hc; simp at hc
  | cons x xs ih =>
      intro b c hc
      cases b with
      | nil => simp at hc
      | cons y ys =>
          simp only [List.zipWith_cons_cons, List.mem_cons] at hc
          rcases hc with rfl | hc
          · exact ⟨x, y, rfl⟩
          · exact ih ys c hc

lemma encode_chunk_channels_shape (l chunk : Nat) :
    ∀ pairs : List (List Int × ADPCMChannel),
      (encode_chunk_channels l chunk pairs).1.length = 4 * pairs.length
      ∧ (encode_chunk_channels l chunk pairs).2.length = pairs.length := by
  intro pairs
  induction pairs with
  | nil => exact ⟨rfl, rfl⟩
  | cons p rest ih =>
      constructor
      · simp only [encode_chunk_channels, List.length_append, List.length_cons,
          encode_bytes_go_length, ih.1, SAMPLES_PER_CHUNK]
        omega
      · simp only [encode_chunk_channels, List.length_cons, ih.2]

lemma encode_chunks_go_shape (l : Nat) (bufs : List (List Int)) :
    ∀ count chunk (pchans : List ADPCMChannel), bufs.length = pchans.length →
      (encode_chunks_go l bufs chunk count pchans).1.length = count * (4 * bufs.length)
      ∧ (encode_chunks_go l bufs chunk count pchans).2.length = bufs.length := by
  intro count
  induction count with
  | zero =>
      intro chunk pchans h
      constructor
      · simp [encode_chunks_go]
      · simp [encode_chunks_go, h]
  | succ m ih =>
      intro chunk pchans h
      have hzip : (bufs.zip pchans).length = bufs.length := by
        simp [List.length_zip, h]
      have h1 := (encode_chunk_channels_shape l chunk (bufs.zip pchans)).1
      have h2 := (encode_chunk_channels_shape l chunk (bufs.zip pchans)).2
      rw [hzip] at h1 h2
      have ihm := ih (chunk + 1) (encode_chunk_channels l chunk (bufs.zip pchans)).2
        h2.symm
      constructor
      · simp only [encode_chunks_go, List.length_append, h1, ihm.1]
        ring
      · simp only [encode_chunks_go, ihm.2]

lemma seeded_channels_length (st : EncoderState) :
    (seeded_channels st).length = min st.buffer.length st.channels.length := by
  simp [seeded_channels]

lemma encode_block_bytes_length (st : EncoderState)
    (h1 : st.buffer.length = st.num_channels)
    (h2 : st.channels.length = st.num_channels) :
    (encode_block_bytes st).length = ADPCM_BLOCK_SIZE * st.num_channels := by
  have hs : (seeded_channels st).length = st.num_channels := by
    rw [seeded_channels_length, h1, h2, Nat.min_self]
  have hhdr : (List.zipWith header_bytes st.buffer (seeded_channels st)).flatten.length
      = st.num_channels * 4 := by
    rw [flatten_length_uniform 4]
    · simp [List.length_zipWith, h1, hs]
    · intro x hx
      obtain ⟨row, pchan, rfl⟩ := mem_zipWith_imp header_bytes _ _ x hx
      rfl
  have hbody := (encode_chunks_go_shape st.lookahead st.buffer CHUNKS_PER_BLOCK 0
    (seeded_channels st) (h1.trans hs.symm)).1
  simp only [encode_block_bytes, List.length_append, hhdr, encode_chunks, hbody, h1]
  simp [ADPCM_BLOCK_SIZE, CHUNKS_PER_BLOCK, HALF_BYTE_SAMPLES_PER_ADPCM_BLOCK,
    SAMPLES_PER_CHUNK]
  ring

lemma encode_chunks_channels_length (st : EncoderState)
    (h1 : st.buffer.length = st.num_channels)
    (h2 : st.channels.length = st.num_channels) :
    (encode_chunks st.lookahead st.buffer (seeded_channels st)).2.length
      = st.num_channels := by
  have hs : (seeded_channels st).length = st.num_channels := by
    rw [seeded_channels_length, h1, h2, Nat.min_self]
  have := (encode_chunks_go_shape st.lookahead st.buffer CHUNKS_PER_BLOCK 0
    (seeded_channels st) (h1.trans hs.symm)).2
  rw [encode_chunks, this, h1]

lemma init_predictors_buffer (st : EncoderState) :
    (init_predictors st).buffer = st.buffer := by
  unfold init_predictors
  split <;> rfl

lemma init_predictors_num_channels (st : EncoderState) :
    (init_predictors st).num_channels = st.num_channels := by
  unfold init_predictors
  split <;> rfl

lemma init_predictors_lookahead (st : EncoderState) :
    (init_predictors st).lookahead = st.lookahead := by
  unfold init_predictors
  split <;> rfl

lemma init_predictors_channels_length (st : EncoderState)
    (h1 : st.buffer.length = st.num_channels)
    (h2 : st.channels.length = st.num_channels) :
    (init_predictors st).channels.length = st.num_channels := by
  unfold init_predictors
  split
  · exact h2
  · simpa using h1

lemma getD_take {α : Type} (d : α) :
    ∀ (l : List α) (n i : Nat), i < n → (l.take n).getD i d = l.getD i d := by
  intro l
  induction l with
  | nil => intro n i _; simp
  | cons x xs ih =>
      intro n i hin
      cases n with
      | zero => omega
      | succ m =>
          cases i with
          | zero => rfl
          | succ j => simpa using ih m j (by omega)

lemma getD_map_range {α : Type} (f : Nat → α) (d : α) :
    ∀ (n i : Nat), i < n → ((List.range n).map f).getD i d = f i := by
  intro n
  induction n with
  | zero => intro i h; omega
  | succ m ih =>
      intro i hi
      rcases Nat.lt_or_ge i m with h | h
      · rw [List.range_succ, List.map_append, List.getD_append]
        · exact ih i h
        · simpa
      · have : i = m := by omega
        subst this
        rw [List.range_succ, List.map_append]
        rw [List.getD_append_right]
        · simp
        · simp

lemma headD_mem {α : Type} (l : List α) (d : α) (h : l ≠ []) : l.headD d ∈ l := by
  cases l with
  | nil => exact absurd rfl h
  | cons x xs => exact List.mem_cons_self x xs

/-! ## Helper lemmas: shapes of the decoder pipeline -/

lemma decode_run_length (nibs : List Nat) :
    ∀ st, (decode_run st nibs).2.length = nibs.length := by
  induction nibs with
  | nil => intro st; rfl
  | cons n rest ih => intro st; simp [decode_run, ih]

lemma word_nibbles_length (data : Nat) : (word_nibbles data).length = 8 := by
  simp [word_nibbles]

lemma decode_channel_go_length (buf : List Nat) (nch ch : Nat) :
    ∀ count st c,
      (decode_channel_go buf nch ch st c count).length = 8 * count := by
  intro count
  induction count with
  | zero => intro st c; rfl
  | succ m ih =>
      intro st c
      simp only [decode_channel_go, List.length_append, ih, decode_run_length,
        word_nibbles_length]
      ring

lemma decode_channel_length (buf : List Nat) (nch ch : Nat) :
    (decode_channel buf nch ch).length = SAMPLES_PER_ADPCM_BLOCK := by
  unfold decode_channel
  rw [decode_channel_go_length]
  rfl

lemma block_output_length (st : DecoderState) : (block_output st).length = 8 := by
  simp [block_output, MAX_AUDIO_CHANNEL_COUNT]

lemma block_output_getD (st : DecoderState) (i : Nat) (hi : i < 8) :
    ((block_output st).getD i []).length = SAMPLES_PER_ADPCM_BLOCK := by
  unfold block_output
  rw [getD_map_range _ _ MAX_AUDIO_CHANNEL_COUNT i hi]
  split
  · exact decode_channel_length _ _ _
  · simp

lemma decode_block_vec (c : Nat) (hc : c ≤ 8) (st : DecoderState)
    (σ : List (List Int)) (hch : st.num_channels = c) (hσ : σ.length = c) :
    ∃ σ', decode_block (vec_decode_sink c) st σ = ({ st with buffer := [] }, .ok σ')
      ∧ σ'.length = c
      ∧ ∀ i < c, (σ'.getD i []).length =
          (σ.getD i []).length + SAMPLES_PER_ADPCM_BLOCK := by
  refine ⟨List.zipWith (· ++ ·) σ ((block_output st).take c), rfl, ?_, ?_⟩
  · simp [List.length_zipWith, hσ, block_output_length, hc]
  · intro i hi
    rw [zipWith_getD (· ++ ·) σ ((block_output st).take c) i [] [] []
      (by omega) (by simp [block_output_length]; omega)]
    rw [List.length_append, getD_take, block_output_getD st i (by omega)]
    exact hi

lemma decode_loop_blocks (c : Nat) (hc1 : 1 ≤ c) (hc8 : c ≤ 8) (input : List Nat) :
    ∀ (m : Nat), ∀ (fuel bl : Nat) (σ : List (List Int)),
      input.length = bl + ADPCM_BLOCK_SIZE * c * m →
      σ.length = c →
      m + 1 ≤ fuel →
      ∃ σ', decode_loop (vec_decode_sink c) fuel ⟨c, []⟩ σ input bl
          = .out ⟨c, []⟩ (.ok σ')
        ∧ σ'.length = c
        ∧ ∀ i < c, (σ'.getD i []).length =
            (σ.getD i []).length + SAMPLES_PER_ADPCM_BLOCK * m := by
  intro m
  induction m with
  | zero =>
      intro fuel bl σ hlen hσ hfuel
      obtain ⟨f, rfl⟩ : ∃ f, fuel = f + 1 := ⟨fuel - 1, by omega⟩
      have hbl : bl = input.length := by omega
      refine ⟨σ, ?_, hσ, fun i _ => by simp⟩
      simp [decode_loop, hbl]
  | succ m ih =>
      intro fuel bl σ hlen hσ hfuel
      obtain ⟨f, rfl⟩ : ∃ f, fuel = f + 1 := ⟨fuel - 1, by omega⟩
      have hBpos : 0 < ADPCM_BLOCK_SIZE * c :=
        Nat.mul_pos (by norm_num [ADPCM_BLOCK_SIZE]) hc1
      rw [Nat.mul_succ] at hlen
      have hne : ¬ (bl = input.length) := by
        generalize ADPCM_BLOCK_SIZE * c * m = q at hlen
        omega
      have hge : ADPCM_BLOCK_SIZE * c ≤ input.length := by
        generalize ADPCM_BLOCK_SIZE * c * m = q at hlen
        omega
      have hn : min (ADPCM_BLOCK_SIZE * c) input.length = ADPCM_BLOCK_SIZE * c :=
        min_eq_left hge
      have hnopanic : ¬ (input.length < bl + ADPCM_BLOCK_SIZE * c) := by
        generalize ADPCM_BLOCK_SIZE * c * m = q at hlen
        omega
      have htake : ((input.drop bl).take (ADPCM_BLOCK_SIZE * c)).length
          = ADPCM_BLOCK_SIZE * c := by
        rw [List.length_take, List.length_drop]
        generalize ADPCM_BLOCK_SIZE * c * m = q at hlen
        omega
      obtain ⟨σ1, hdb, hσ1len, hσ1inc⟩ := decode_block_vec c hc8
        ⟨c, (input.drop bl).take (ADPCM_BLOCK_SIZE * c)⟩ σ rfl hσ
      obtain ⟨σ2, hrec, hσ2len, hσ2inc⟩ := ih f (bl + ADPCM_BLOCK_SIZE * c) σ1
        (by generalize ADPCM_BLOCK_SIZE * c * m = q at hlen ⊢; omega)
        hσ1len (by omega)
      refine ⟨σ2, ?_, hσ2len, fun i hi => ?_⟩
      · simp only [decode_loop, if_neg hne, List.nil_append, List.length_nil,
          Nat.sub_zero, hn, if_neg hnopanic, htake, eq_self_iff_true, if_true,
          hdb, hrec]
      · rw [hσ2inc i hi, hσ1inc i hi, Nat.mul_succ]
        omega

lemma map_const_nil {α β : Type} (l : List α) :
    l.map (fun _ => ([] : List β)) = List.replicate l.length [] := by
  induction l with
  | nil => rfl
  | cons x xs ih => simp [ih, List.replicate_succ]

lemma buffer_size_of_rows (st : EncoderState) (L : Nat) (hne : st.buffer ≠ [])
    (h : ∀ row ∈ st.buffer, row.length = L) : buffer_size st = L :=
  h _ (headD_mem st.buffer [] hne)

lemma init_predictors_of_flag (st : EncoderState)
    (h : st.predictors_initialized = true) : init_predictors st = st := by
  simp [init_predictors, h]

lemma load_samples_length (bufs input : List (List Int)) (loaded n : Nat) :
    (load_samples bufs input loaded n).length = min bufs.length input.length := by
  simp [load_samples]

lemma load_samples_rows (loaded n L : Nat) :
    ∀ (bufs input : List (List Int)),
      (∀ row ∈ bufs, row.length = L) →
      (∀ row ∈ input, loaded + n ≤ row.length) →
      ∀ row ∈ load_samples bufs input loaded n, row.length = L + n := by
  intro bufs
  induction bufs with
  | nil => intro input _ _ row hrow; simp [load_samples] at hrow
  | cons b bs ih =>
      intro input hb hi row hrow
      cases input with
      | nil => simp [load_samples] at hrow
      | cons x xs =>
          simp only [load_samples, List.zipWith_cons_cons, List.mem_cons] at hrow
          rcases hrow with rfl | hrow
          · have hx := hi x (List.mem_cons_self x xs)
            simp only [List.length_append, List.length_take, List.length_drop,
              hb b (List.mem_cons_self b bs)]
            omega
          · exact ih xs (fun r hr => hb r (List.mem_cons_of_mem b hr))
              (fun r hr => hi r (List.mem_cons_of_mem x hr)) row hrow

lemma encode_block_vec (st : EncoderState) (s : List Nat)
    (h1 : st.buffer.length = st.num_channels)
    (h2 : st.channels.length = st.num_channels)
    (hrows : ∀ row ∈ st.buffer, row.length = PCM_BUFFER_CAPACITY) :
    ∃ st3 bytes, encode_block vec_encode_sink st s = (st3, .ok (s ++ bytes))
      ∧ bytes.length = ADPCM_BLOCK_SIZE * st.num_channels
      ∧ st3.num_channels = st.num_channels
      ∧ st3.lookahead = st.lookahead
      ∧ st3.predictors_initialized = st.predictors_initialized
      ∧ st3.channels.length = st.num_channels
      ∧ st3.buffer.length = st.num_channels
      ∧ ∀ row ∈ st3.buffer, row.length = PCM_BUFFER_EXTRA := by
  refine ⟨_, _, rfl, encode_block_bytes_length st h1 h2, rfl, rfl, rfl,
    encode_chunks_channels_length st h1 h2, by simpa using h1, ?_⟩
  intro row hrow
  simp only [List.mem_map] at hrow
  obtain ⟨r, hr, rfl⟩ := hrow
  have hlen := hrows r hr
  simp only [List.length_take, List.length_drop, hlen]
  decide

lemma finish_one_block (st : EncoderState) (s : List Nat)
    (h0 : buffer_size st ≠ 0)
    (h1 : st.buffer.length = st.num_channels)
    (h2 : st.channels.length = st.num_channels) :
    ∃ st2 bytes,
      finish vec_encode_sink st s = (st2, .ok (s ++ bytes))
      ∧ bytes = encode_block_bytes (pad_state (init_predictors st))
      ∧ bytes.length = ADPCM_BLOCK_SIZE * st.num_channels
      ∧ (init_predictors st).predictors_initialized = true
      ∧ st2.predictors_initialized = false
      ∧ st2.buffer = List.replicate st.num_channels []
      ∧ st2.num_channels = st.num_channels := by
  have hfin : finish vec_encode_sink st s =
      (encoder_reset (encode_block vec_encode_sink (pad_state (init_predictors st)) s).1,
       .ok (s ++ encode_block_bytes (pad_state (init_predictors st)))) := by
    simp only [finish, if_pos h0]
    rfl
  have hpadbuf : (pad_state (init_predictors st)).buffer.length = st.num_channels := by
    simp [pad_state, init_predictors_buffer, h1]
  refine ⟨_, _, hfin, rfl, ?_, ?_, rfl, ?_, ?_⟩
  · rw [encode_block_bytes_length]
    · show ADPCM_BLOCK_SIZE * (init_predictors st).num_channels = _
      rw [init_predictors_num_channels]
    · rw [hpadbuf]
      show st.num_channels = (init_predictors st).num_channels
      rw [init_predictors_num_channels]
    · show (init_predictors st).channels.length = (init_predictors st).num_channels
      rw [init_predictors_num_channels, init_predictors_channels_length st h1 h2]
  · unfold init_predictors
    split
    · assumption
    · rfl
  · show (_ : EncoderState).buffer.map (fun _ => []) = _
    rw [map_const_nil]
    congr 1
    show ((pad_state (init_predictors st)).buffer.map _).length = _
    simp [pad_state, init_predictors_buffer, h1]
  · show (pad_state (init_predictors st)).num_channels = st.num_channels
    rw [pad_state, init_predictors_num_channels]

lemma encode_loop_done {f loaded : Nat} {st : EncoderState} {s : List Nat}
    {input : List (List Int)} (heq : loaded = (input.headD []).length) :
    encode_loop vec_encode_sink (f + 1) st s input loaded = .out st (.ok s) := by
  simp [encode_loop, heq]

lemma encode_loop_one_partial (f loaded n : Nat) (st : EncoderState) (s : List Nat)
    (input : List (List Int))
    (hne : ¬ (loaded = (input.headD []).length))
    (hmin : min (PCM_BUFFER_CAPACITY - buffer_size st)
      ((input.headD []).length - loaded) = n)
    (hcond : ¬ (buffer_size { st with buffer := load_samples st.buffer input loaded n }
      = PCM_BUFFER_CAPACITY)) :
    encode_loop vec_encode_sink (f + 1) st s input loaded =
      encode_loop vec_encode_sink f
        { st with buffer := load_samples st.buffer input loaded n } s input
        (loaded + n) := by
  simp only [encode_loop, if_neg hne, hmin, if_neg hcond]

lemma encode_loop_one_full (f loaded n : Nat) (st : EncoderState) (s : List Nat)
    (input : List (List Int))
    (hne : ¬ (loaded = (input.headD []).length))
    (hmin : min (PCM_BUFFER_CAPACITY - buffer_size st)
      ((input.headD []).length - loaded) = n)
    (hcond : buffer_size { st with buffer := load_samples st.buffer input loaded n }
      = PCM_BUFFER_CAPACITY) :
    encode_loop vec_encode_sink (f + 1) st s input loaded =
      match encode_block vec_encode_sink
          (init_predictors { st with buffer := load_samples st.buffer input loaded n }) s with
      | (st3, .error e) => .out st3 (.error e)
      | (st3, .ok s') => encode_loop vec_encode_sink f st3 s' input (loaded + n) := by
  simp only [encode_loop, if_neg hne, hmin, hcond, eq_self_iff_true, if_true]
  rfl

lemma encode_loop_blocks (c : Nat) (hc : 1 ≤ c) (input : List (List Int))
    (hinlen : input.length = c) :
    ∀ (m : Nat), ∀ (fuel loaded : Nat) (st : EncoderState) (s : List Nat),
      st.num_channels = c →
      st.predictors_initialized = true →
      st.channels.length = c → st.buffer.length = c →
      (∀ row ∈ st.buffer, row.length = PCM_BUFFER_EXTRA) →
      (∀ row ∈ input, row.length = loaded + (64 * m + 62)) →
      m + 2 ≤ fuel →
      ∃ st' s', encode_loop vec_encode_sink fuel st s input loaded = .out st' (.ok s')
        ∧ s'.length = s.length + m * (ADPCM_BLOCK_SIZE * c)
        ∧ st'.num_channels = c
        ∧ st'.channels.length = c ∧ st'.buffer.length = c
        ∧ (∀ row ∈ st'.buffer, row.length = 64) := by
  intro m
  induction m with
  | zero =>
      intro fuel loaded st s hnum hp hch hbuf hrows hin hfuel
      obtain ⟨f, rfl⟩ : ∃ f, fuel = f + 1 := ⟨fuel - 1, by omega⟩
      obtain ⟨f2, rfl⟩ : ∃ f2, f = f2 + 1 := ⟨f - 1, by omega⟩
      have hinne : input ≠ [] := List.length_pos.mp (by omega)
      have hsc : (input.headD []).length = loaded + 62 := by
        have := hin _ (headD_mem input [] hinne)
        omega
      have hne : ¬ (loaded = (input.headD []).length) := by omega
      have hstbne : st.buffer ≠ [] := List.length_pos.mp (by omega)
      have hbsz : buffer_size st = PCM_BUFFER_EXTRA :=
        buffer_size_of_rows st _ hstbne hrows
      have hmin : min (PCM_BUFFER_CAPACITY - buffer_size st)
          ((input.headD []).length - loaded) = 62 := by
        rw [hbsz, hsc]
        have hce : PCM_BUFFER_CAPACITY - PCM_BUFFER_EXTRA = 64 := by decide
        rw [hce]
        omega
      have hload_rows : ∀ row ∈ load_samples st.buffer input loaded 62,
          row.length = PCM_BUFFER_EXTRA + 62 :=
        load_samples_rows loaded 62 PCM_BUFFER_EXTRA st.buffer input hrows
          (fun r hr => by have := hin r hr; omega)
      have hload_len : (load_samples st.buffer input loaded 62).length = c := by
        rw [load_samples_length, hbuf, hinlen, min_self]
      have hloadne : load_samples st.buffer input loaded 62 ≠ [] :=
        List.length_pos.mp (by omega)
      have hcond : ¬ (buffer_size
          { st with buffer := load_samples st.buffer input loaded 62 }
            = PCM_BUFFER_CAPACITY) := by
        rw [buffer_size_of_rows _ (PCM_BUFFER_EXTRA + 62) hloadne hload_rows]
        decide
      refine ⟨{ st with buffer := load_samples st.buffer input loaded 62 }, s,
        ?_, by simp, hnum, hch, hload_len, fun r hr => by
          rw [hload_rows r hr]; decide⟩
      simp only [encode_loop, if_neg hne, hmin, if_neg hcond]
      rw [if_pos hsc.symm]
  | succ m ih =>
      intro fuel loaded st s hnum hp hch hbuf hrows hin hfuel
      obtain ⟨f, rfl⟩ : ∃ f, fuel = f + 1 := ⟨fuel - 1, by omega⟩
      have hinne : input ≠ [] := List.length_pos.mp (by omega)
      have hsc : (input.headD []).length = loaded + (64 * (m + 1) + 62) :=
        hin _ (headD_mem input [] hinne)
      have hne : ¬ (loaded = (input.headD []).length) := by omega
      have hstbne : st.buffer ≠ [] := List.length_pos.mp (by omega)
      have hbsz : buffer_size st = PCM_BUFFER_EXTRA :=
        buffer_size_of_rows st _ hstbne hrows
      have hmin : min (PCM_BUFFER_CAPACITY - buffer_size st)
          ((input.headD []).length - loaded) = 64 := by
        rw [hbsz, hsc]
        have hce : PCM_BUFFER_CAPACITY - PCM_BUFFER_EXTRA = 64 := by decide
        rw [hce]
        omega
      have hload_rows : ∀ row ∈ load_samples st.buffer input loaded 64,
          row.length = PCM_BUFFER_EXTRA + 64 :=
        load_samples_rows loaded 64 PCM_BUFFER_EXTRA st.buffer input hrows
          (fun r hr => by have := hin r hr; omega)
      have hload_rows' : ∀ row ∈ load_samples st.buffer input loaded 64,
          row.length = PCM_BUFFER_CAPACITY := fun r hr => by
        have := hload_rows r hr
        omega
      have hload_len : (load_samples st.buffer input loaded 64).length = c := by
        rw [load_samples_length, hbuf, hinlen, min_self]
      have hloadne : load_samples st.buffer input loaded 64 ≠ [] :=
        List.length_pos.mp (by omega)
      have hcond : buffer_size
          { st with buffer := load_samples st.buffer input loaded 64 }
            = PCM_BUFFER_CAPACITY :=
        buffer_size_of_rows _ PCM_BUFFER_CAPACITY hloadne hload_rows'
      have hflag1 : ({ st with buffer := load_samples st.buffer input loaded 64 } :
          EncoderState).predictors_initialized = true := hp
      have hinit := init_predictors_of_flag _ hflag1
      obtain ⟨st3, bytes, hdb, hbyteslen, hnum3, -, hflag3, hch3, hbuf3, hrows3⟩ :=
        encode_block_vec { st with buffer := load_samples st.buffer input loaded 64 }
          s (by simpa [hload_len] using hnum.symm) (by simpa using hch.trans hnum.symm)
          hload_rows'
      rw [hnum] at hbyteslen hnum3 hch3 hbuf3
      obtain ⟨st', s', hrec, hs'len, hnum', hch', hbuf', hrows'⟩ :=
        ih f (loaded + 64) st3 (s ++ bytes) hnum3 (hflag3.trans hp) hch3 hbuf3
          hrows3 (fun r hr => by have := hin r hr; omega) (by omega)
      refine ⟨st', s', ?_, ?_, hnum', hch', hbuf', hrows'⟩
      · simp only [encode_loop, if_neg hne, hmin, hcond, eq_self_iff_true, if_true,
          hinit, hdb, hrec]
      · rw [hs'len, List.length_append, hbyteslen, Nat.succ_mul]
        generalize m * (ADPCM_BLOCK_SIZE * c) = q
        omega

lemma buffer_size_new (c look : Nat) :
    buffer_size (XboxADPCMEncoder_new c look) = 0 := by
  cases c with
  | zero => rfl
  | succ n => rfl

lemma encode_fresh (c look k : Nat) (hc : 1 ≤ c) (hk : 1 ≤ k)
    (input : List (List Int)) (hinlen : input.length = c)
    (hin : ∀ row ∈ input, row.length = 64 * k) :
    ∃ st' s', encode vec_encode_sink (XboxADPCMEncoder_new c look) [] input
        = .out st' (.ok s')
      ∧ s'.length = (k - 1) * (ADPCM_BLOCK_SIZE * c)
      ∧ st'.num_channels = c ∧ st'.channels.length = c
      ∧ st'.buffer.length = c ∧ (∀ row ∈ st'.buffer, row.length = 64) := by
  have hinne : input ≠ [] := List.length_pos.mp (by omega)
  have hsc : (input.headD []).length = 64 * k := hin _ (headD_mem input [] hinne)
  have hany : (input.any fun chan => chan.length ≠ (input.headD []).length) = false := by
    simp only [List.any_eq_false, ne_eq, decide_not, Bool.not_eq_true', decide_eq_false_iff_not,
      Decidable.not_not]
    intro x hx
    rw [hin x hx, hsc]
  have hb0 : buffer_size (XboxADPCMEncoder_new c look) = 0 := buffer_size_new c look
  have hstep : encode vec_encode_sink (XboxADPCMEncoder_new c look) [] input
      = encode_loop vec_encode_sink ((input.headD []).length + 2)
          (XboxADPCMEncoder_new c look) [] input 0 := by
    simp only [encode, XboxADPCMEncoder_new, hinlen, ne_eq, not_true_eq_false,
      if_false, hany, Bool.false_eq_true, vec_encode_sink, ite_self]
  have hnewrows : ∀ row ∈ (XboxADPCMEncoder_new c look).buffer, row.length = 0 := by
    intro row hrow
    rw [List.eq_of_mem_replicate hrow]
    rfl
  have hinbound : ∀ n, n ≤ 64 * k → ∀ row ∈ input, 0 + n ≤ row.length := by
    intro n hn row hrow
    rw [hin row hrow]
    omega
  have hne : ¬ ((0 : Nat) = (input.headD []).length) := by
    rw [hsc]
    omega
  rcases Nat.lt_or_ge k 2 with hklt | hkge
  · have hk1 : k = 1 := by omega
    subst hk1
    have hmin : min (PCM_BUFFER_CAPACITY - buffer_size (XboxADPCMEncoder_new c look))
        ((input.headD []).length - 0) = 64 := by
      rw [hb0, hsc]
      decide
    have hload_rows : ∀ row ∈ load_samples (XboxADPCMEncoder_new c look).buffer input 0 64,
        row.length = 0 + 64 :=
      load_samples_rows 0 64 0 _ input hnewrows (hinbound 64 (by omega))
    have hload_len : (load_samples (XboxADPCMEncoder_new c look).buffer input 0 64).length
        = c := by
      rw [load_samples_length, hinlen]
      simp [XboxADPCMEncoder_new]
    have hloadne : load_samples (XboxADPCMEncoder_new c look).buffer input 0 64 ≠ [] :=
      List.length_pos.mp (by omega)
    have hcond : ¬ (buffer_size
        { XboxADPCMEncoder_new c look with
          buffer := load_samples (XboxADPCMEncoder_new c look).buffer input 0 64 }
          = PCM_BUFFER_CAPACITY) := by
      rw [buffer_size_of_rows _ (0 + 64) hloadne hload_rows]
      decide
    refine ⟨{ XboxADPCMEncoder_new c look with
        buffer := load_samples (XboxADPCMEncoder_new c look).buffer input 0 64 }, [],
      ?_, by simp, rfl, by simp [XboxADPCMEncoder_new], hload_len,
      fun r hr => by rw [hload_rows r hr]⟩
    rw [hstep,
      show (input.headD []).length + 2 = ((input.headD []).length + 1) + 1 from rfl,
      encode_loop_one_partial ((input.headD []).length + 1) 0 64 _ _ _ hne hmin hcond,
      encode_loop_done (by rw [hsc])]
  · obtain ⟨k2, rfl⟩ : ∃ k2, k = k2 + 2 := ⟨k - 2, by omega⟩
    have hmin : min (PCM_BUFFER_CAPACITY - buffer_size (XboxADPCMEncoder_new c look))
        ((input.headD []).length - 0) = 66 := by
      rw [hb0, hsc]
      have h66 : PCM_BUFFER_CAPACITY - 0 = 66 := by decide
      rw [h66]
      omega
    have hload_rows : ∀ row ∈ load_samples (XboxADPCMEncoder_new c look).buffer input 0 66,
        row.length = 0 + 66 :=
      load_samples_rows 0 66 0 _ input hnewrows (hinbound 66 (by omega))
    have hload_rows' : ∀ row ∈ load_samples (XboxADPCMEncoder_new c look).buffer input 0 66,
        row.length = PCM_BUFFER_CAPACITY := fun r hr => by
      rw [hload_rows r hr]
      rfl
    have hload_len : (load_samples (XboxADPCMEncoder_new c look).buffer input 0 66).length
        = c := by
      rw [load_samples_length, hinlen]
      simp [XboxADPCMEncoder_new]
    have hloadne : load_samples (XboxADPCMEncoder_new c look).buffer input 0 66 ≠ [] :=
      List.length_pos.mp (by omega)
    have hcond : buffer_size
        { XboxADPCMEncoder_new c look with
          buffer := load_samples (XboxADPCMEncoder_new c look).buffer input 0 66 }
          = PCM_BUFFER_CAPACITY :=
      buffer_size_of_rows _ PCM_BUFFER_CAPACITY hloadne hload_rows'
    have hinit : init_predictors
        { XboxADPCMEncoder_new c look with
          buffer := load_samples (XboxADPCMEncoder_new c look).buffer input 0 66 }
        = { channels := (load_samples (XboxADPCMEncoder_new c look).buffer input 0 66).map
              (fun row => { pcmdata := 0, index := initial_index (decaying_avg row) }),
            num_channels := c,
            lookahead := look,
            buffer := load_samples (XboxADPCMEncoder_new c look).buffer input 0 66,
            predictors_initialized := true } := rfl
    obtain ⟨st3, bytes, hdb, hbyteslen0, hnum30, -, hflag30, hch30, hbuf30, hrows3⟩ :=
      encode_block_vec
        { channels := (load_samples (XboxADPCMEncoder_new c look).buffer input 0 66).map
            (fun row => { pcmdata := 0, index := initial_index (decaying_avg row) }),
          num_channels := c,
          lookahead := look,
          buffer := load_samples (XboxADPCMEncoder_new c look).buffer input 0 66,
          predictors_initialized := true } []
        hload_len (by rw [List.length_map]; exact hload_len) hload_rows'
    have hbyteslen : bytes.length = ADPCM_BLOCK_SIZE * c := hbyteslen0
    have hnum3 : st3.num_channels = c := hnum30
    have hflag3 : st3.predictors_initialized = true := hflag30
    have hch3 : st3.channels.length = c := hch30
    have hbuf3 : st3.buffer.length = c := hbuf30
    obtain ⟨st', s', hrec, hs'len, hnum', hch', hbuf', hrows'⟩ :=
      encode_loop_blocks c hc input hinlen k2 ((input.headD []).length + 1) 66 st3
        ([] ++ bytes) hnum3 hflag3 hch3 hbuf3 hrows3
        (fun r hr => by rw [hin r hr]; omega)
        (by rw [hsc]; omega)
    refine ⟨st', s', ?_, ?_, hnum', hch', hbuf', hrows'⟩
    · rw [hstep,
        show (input.headD []).length + 2 = ((input.headD []).length + 1) + 1 from rfl,
        encode_loop_one_full ((input.headD []).length + 1) 0 66 _ _ _ hne hmin hcond,
        hinit, hdb]
      simpa using hrec
    · rw [hs'len, List.nil_append, hbyteslen]
      have hke : k2 + 2 - 1 = k2 + 1 := rfl
      rw [hke, Nat.succ_mul]
      generalize k2 * (ADPCM_BLOCK_SIZE * c) = q
      omega

/-! ## Helper lemmas: more list utilities for the block-format theorem -/

lemma getD_drop {α : Type} (d : α) :
    ∀ (l : List α) (m i : Nat), (l.drop m).getD i d = l.getD (m + i) d := by
  intro l
  induction l with
  | nil => intro m i; simp
  | cons x xs ih =>
      intro m i
      cases m with
      | zero => simp
      | succ m' =>
          rw [List.drop_succ_cons, ih m' i, show m' + 1 + i = (m' + i) + 1 from by omega]
          rfl

lemma length8_explicit (l : List Nat) (h : l.length = 8) :
    ∃ a0 a1 a2 a3 a4 a5 a6 a7, l = [a0, a1, a2, a3, a4, a5, a6, a7] := by
  match l, h with
  | [a0, a1, a2, a3, a4, a5, a6, a7], _ =>
      exact ⟨a0, a1, a2, a3, a4, a5, a6, a7, rfl⟩

lemma map_zipWith_fuse {α β γ δ : Type} (g : γ → δ) (f : α → β → γ) :
    ∀ (a : List α) (b : List β),
      (List.zipWith f a b).map g = List.zipWith (fun x y => g (f x y)) a b := by
  intro a
  induction a with
  | nil => intro b; rfl
  | cons x xs ih =>
      intro b
      cases b with
      | nil => rfl
      | cons y ys => simp [ih ys]

lemma zipWith_zipWith_fuse {α β γ δ : Type} (f : α → γ → δ) (g : α → β → γ) :
    ∀ (a : List α) (b : List β),
      List.zipWith f a (List.zipWith g a b) = List.zipWith (fun x y => f x (g x y)) a b := by
  intro a
  induction a with
  | nil => intro b; rfl
  | cons x xs ih =>
      intro b
      cases b with
      | nil => rfl
      | cons y ys => simp [ih ys]

lemma zipWith_snd {α β : Type} :
    ∀ (a : List α) (b : List β), a.length = b.length →
      List.zipWith (fun _ y => y) a b = b := by
  intro a
  induction a with
  | nil =>
      intro b h
      cases b with
      | nil => rfl
      | cons y ys => simp at h
  | cons x xs ih =>
      intro b h
      cases b with
      | nil => simp at h
      | cons y ys =>
          simp only [List.zipWith_cons_cons]
          rw [ih ys (by simpa using h)]

lemma decode_run_append (a b : List Nat) :
    ∀ st, decode_run st (a ++ b) =
      ((decode_run (decode_run st a).1 b).1,
       (decode_run st a).2 ++ (decode_run (decode_run st a).1 b).2) := by
  induction a with
  | nil => intro st; simp [decode_run]
  | cons x xs ih =>
      intro st
      simp only [List.cons_append, decode_run, List.append_eq, ih]

lemma or_shift_eq_add : ∀ x < 16, ∀ y < 16, x ||| y <<< 4 = x + 16 * y := by
  decide

lemma word_nibbles_le32 (b0 b1 b2 b3 : Nat)
    (h0 : b0 < 256) (h1 : b1 < 256) (h2 : b2 < 256) (h3 : b3 < 256) :
    word_nibbles (le32 b0 b1 b2 b3) =
      [b0 % 16, b0 / 16, b1 % 16, b1 / 16, b2 % 16, b2 / 16, b3 % 16, b3 / 16] := by
  show (List.range 8).map _ = _
  rw [show List.range 8 = [0, 1, 2, 3, 4, 5, 6, 7] from by decide]
  simp only [List.map_cons, List.map_nil, le32]
  norm_num
  refine ⟨?_, ?_, ?_, ?_, ?_, ?_, ?_, ?_⟩ <;> omega

lemma getD_map {α β : Type} (f : α → β) (dα : α) (dβ : β) :
    ∀ (l : List α) (i : Nat), i < l.length →
      (l.map f).getD i dβ = f (l.getD i dα) := by
  intro l
  induction l with
  | nil => intro i h; simp at h
  | cons x xs ih =>
      intro i h
      cases i with
      | zero => rfl
      | succ j => simpa using ih j (by simpa using h)

lemma flatten_getD {α : Type} (L : Nat) :
    ∀ (ll : List (List α)), (∀ l ∈ ll, l.length = L) →
      ∀ (q r : Nat), q < ll.length → r < L → ∀ (d : α),
        ll.flatten.getD (q * L + r) d = (ll.getD q []).getD r d := by
  intro ll
  induction ll with
  | nil => intro _ q r hq _ _; simp at hq
  | cons x xs ih =>
      intro hL q r hq hr d
      have hx : x.length = L := hL x (List.mem_cons_self x xs)
      cases q with
      | zero =>
          rw [List.flatten_cons, Nat.zero_mul, Nat.zero_add,
            List.getD_append _ _ _ _ (by omega)]
          rfl
      | succ q' =>
          rw [List.flatten_cons,
            List.getD_append_right _ _ _ _ (by rw [hx]; rw [Nat.succ_mul]; omega),
            hx, show (q' + 1) * L + r - L = q' * L + r from by rw [Nat.succ_mul]; omega]
          exact ih (fun l hl => hL l (List.mem_cons_of_mem x hl)) q' r
            (by simpa using hq) hr d

/-! ## Helper lemmas: reading the specification block format back -/

lemma pack_pairs_explicit (a0 a1 a2 a3 a4 a5 a6 a7 : Nat) :
    pack_pairs [a0, a1, a2, a3, a4, a5, a6, a7] =
      [a0 ||| a1 <<< 4, a2 ||| a3 <<< 4, a4 ||| a5 <<< 4, a6 ||| a7 <<< 4] := rfl

lemma spec_headers_length (hdrs : List (Int × Nat)) :
    ((hdrs.map (fun h =>
      [i16_to_u16 h.1 % 256, i16_to_u16 h.1 / 256, h.2, 0])).flatten).length
      = hdrs.length * 4 := by
  rw [flatten_length_uniform 4]
  · rw [List.length_map]
  · intro x hx
    obtain ⟨h, -, rfl⟩ := List.mem_map.mp hx
    rfl

lemma seg_length (cs : List Nat) (k : Nat) (hlen : cs.length = 64) (hk : k < 8) :
    ((cs.drop (k * 8)).take 8).length = 8 := by
  rw [List.length_take, List.length_drop, hlen]
  omega

lemma seg_pack_length (codes : List (List Nat)) (k : Nat) (hk : k < 8)
    (hwf : ∀ cs ∈ codes, cs.length = 64) :
    ∀ x ∈ codes.map (fun cs => pack_pairs ((cs.drop (k * SAMPLES_PER_CHUNK)).take SAMPLES_PER_CHUNK)),
      x.length = 4 := by
  intro x hx
  obtain ⟨cs, hcs, rfl⟩ := List.mem_map.mp hx
  obtain ⟨a0, a1, a2, a3, a4, a5, a6, a7, hseg⟩ :=
    length8_explicit _ (seg_length cs k (hwf cs hcs) hk)
  show (pack_pairs ((cs.drop (k * 8)).take 8)).length = 4
  rw [hseg, pack_pairs_explicit]
  rfl

lemma spec_block_header_byte (hdrs : List (Int × Nat)) (codes : List (List Nat))
    (ch r : Nat) (hch : ch < hdrs.length) (hr : r < 4) :
    (spec_format_block hdrs codes).getD (4 * ch + r) 0 =
      ([i16_to_u16 (hdrs.getD ch (0, 0)).1 % 256,
        i16_to_u16 (hdrs.getD ch (0, 0)).1 / 256,
        (hdrs.getD ch (0, 0)).2, 0].getD r 0) := by
  unfold spec_format_block
  rw [List.getD_append _ _ _ _ (by rw [spec_headers_length]; omega),
    show 4 * ch + r = ch * 4 + r from by ring,
    flatten_getD 4 _ ?_ ch r (by rw [List.length_map]; omega) hr,
    getD_map _ (0, 0) []]
  · exact hch
  · intro x hx
    obtain ⟨h, -, rfl⟩ := List.mem_map.mp hx
    rfl

lemma spec_block_body_byte (hdrs : List (Int × Nat)) (codes : List (List Nat))
    (c k ch j : Nat) (hc : hdrs.length = c) (hcodes : codes.length = c)
    (hk : k < 8) (hch : ch < c) (hj : j < 4)
    (hwf : ∀ cs ∈ codes, cs.length = 64) :
    (spec_format_block hdrs codes).getD (4 * c + (4 * (k * c + ch) + j)) 0 =
      (pack_pairs (((codes.getD ch []).drop (k * 8)).take 8)).getD j 0 := by
  have hlens : ∀ x ∈ (List.range CHUNKS_PER_BLOCK).map (fun chunk =>
      (codes.map (fun cs =>
        pack_pairs ((cs.drop (chunk * SAMPLES_PER_CHUNK)).take SAMPLES_PER_CHUNK))).flatten),
      x.length = c * 4 := by
    intro x hx
    obtain ⟨k', hk', rfl⟩ := List.mem_map.mp hx
    rw [flatten_length_uniform 4 _
        (seg_pack_length codes k' (by simpa [CHUNKS_PER_BLOCK] using List.mem_range.mp hk') hwf),
      List.length_map, hcodes]
  unfold spec_format_block
  rw [List.getD_append_right _ _ _ _ (by rw [spec_headers_length, hc]; omega),
    spec_headers_length, hc,
    show 4 * c + (4 * (k * c + ch) + j) - c * 4 = k * (c * 4) + (ch * 4 + j) from by
      ring_nf
      omega]
  rw [flatten_getD (c * 4) _ hlens k (ch * 4 + j)
      (by simp [CHUNKS_PER_BLOCK, List.length_map, List.length_range]; omega)
      (by omega),
    getD_map_range _ [] CHUNKS_PER_BLOCK k (by simpa [CHUNKS_PER_BLOCK] using hk)]
  rw [flatten_getD 4 _ (seg_pack_length codes k hk hwf) ch j
      (by rw [List.length_map]; omega) hj,
    getD_map _ [] []]
  · show (pack_pairs (((codes.getD ch []).drop (k * 8)).take 8)).getD j 0 = _
    rfl
  · omega

lemma getD_mem {α : Type} (d : α) :
    ∀ (l : List α) (i : Nat), i < l.length → l.getD i d ∈ l := by
  intro l
  induction l with
  | nil => intro i h; simp at h
  | cons x xs ih =>
      intro i h
      cases i with
      | zero => exact List.mem_cons_self x xs
      | succ j =>
          exact List.mem_cons_of_mem x (ih j (by simpa using h))

lemma spec_block_word (hdrs : List (Int × Nat)) (codes : List (List Nat))
    (c k ch : Nat) (hc : hdrs.length = c) (hcodes : codes.length = c)
    (hk : k < 8) (hch : ch < c)
    (hwf : ∀ cs ∈ codes, cs.length = 64)
    (hnib : ∀ cs ∈ codes, ∀ x ∈ cs, x < 16) :
    word_nibbles (channel_word (spec_format_block hdrs codes) c ch k)
      = ((codes.getD ch []).drop (k * 8)).take 8 := by
  have hcs : codes.getD ch [] ∈ codes := getD_mem [] codes ch (by omega)
  obtain ⟨a0, a1, a2, a3, a4, a5, a6, a7, hseg⟩ :=
    length8_explicit _ (seg_length (codes.getD ch []) k (hwf _ hcs) hk)
  have hmem : ∀ x ∈ ((codes.getD ch []).drop (k * 8)).take 8, x < 16 := fun x hx =>
    hnib _ hcs x (List.mem_of_mem_drop (List.mem_of_mem_take hx))
  rw [hseg] at hmem
  have ha0 : a0 < 16 := hmem a0 (by simp)
  have ha1 : a1 < 16 := hmem a1 (by simp)
  have ha2 : a2 < 16 := hmem a2 (by simp)
  have ha3 : a3 < 16 := hmem a3 (by simp)
  have ha4 : a4 < 16 := hmem a4 (by simp)
  have ha5 : a5 < 16 := hmem a5 (by simp)
  have ha6 : a6 < 16 := hmem a6 (by simp)
  have ha7 : a7 < 16 := hmem a7 (by simp)
  have hbyte : ∀ j, j < 4 →
      (spec_format_block hdrs codes).getD (4 * c + (4 * (k * c + ch) + j)) 0
        = ([a0 ||| a1 <<< 4, a2 ||| a3 <<< 4, a4 ||| a5 <<< 4, a6 ||| a7 <<< 4].getD j 0) := by
    intro j hj
    rw [spec_block_body_byte hdrs codes c k ch j hc hcodes hk hch hj hwf, hseg,
      pack_pairs_explicit]
  have hcw : channel_word (spec_format_block hdrs codes) c ch k
      = le32 ((spec_format_block hdrs codes).getD (4 * c + 4 * (k * c + ch)) 0)
          ((spec_format_block hdrs codes).getD (4 * c + 4 * (k * c + ch) + 1) 0)
          ((spec_format_block hdrs codes).getD (4 * c + 4 * (k * c + ch) + 2) 0)
          ((spec_format_block hdrs codes).getD (4 * c + 4 * (k * c + ch) + 3) 0) := rfl
  rw [hcw,
    show 4 * c + 4 * (k * c + ch) = 4 * c + (4 * (k * c + ch) + 0) from by omega,
    hbyte 0 (by omega),
    show 4 * c + (4 * (k * c + ch) + 0) + 1 = 4 * c + (4 * (k * c + ch) + 1) from by omega,
    hbyte 1 (by omega),
    show 4 * c + (4 * (k * c + ch) + 0) + 2 = 4 * c + (4 * (k * c + ch) + 2) from by omega,
    hbyte 2 (by omega),
    show 4 * c + (4 * (k * c + ch) + 0) + 3 = 4 * c + (4 * (k * c + ch) + 3) from by omega,
    hbyte 3 (by omega)]
  rw [hseg]
  show word_nibbles (le32 (a0 ||| a1 <<< 4) (a2 ||| a3 <<< 4) (a4 ||| a5 <<< 4)
    (a6 ||| a7 <<< 4)) = _
  rw [or_shift_eq_add a0 ha0 a1 ha1, or_shift_eq_add a2 ha2 a3 ha3,
    or_shift_eq_add a4 ha4 a5 ha5, or_shift_eq_add a6 ha6 a7 ha7,
    word_nibbles_le32 _ _ _ _ (by omega) (by omega) (by omega) (by omega)]
  have e0 : (a0 + 16 * a1) % 16 = a0 := by omega
  have e1 : (a0 + 16 * a1) / 16 = a1 := by omega
  have e2 : (a2 + 16 * a3) % 16 = a2 := by omega
  have e3 : (a2 + 16 * a3) / 16 = a3 := by omega
  have e4 : (a4 + 16 * a5) % 16 = a4 := by omega
  have e5 : (a4 + 16 * a5) / 16 = a5 := by omega
  have e6 : (a6 + 16 * a7) % 16 = a6 := by omega
  have e7 : (a6 + 16 * a7) / 16 = a7 := by omega
  rw [e0, e1, e2, e3, e4, e5, e6, e7]

lemma decode_channel_go_spec (hdrs : List (Int × Nat)) (codes : List (List Nat))
    (c ch : Nat) (hc : hdrs.length = c) (hcodes : codes.length = c) (hch : ch < c)
    (hwf : ∀ cs ∈ codes, cs.length = 64)
    (hnib : ∀ cs ∈ codes, ∀ x ∈ cs, x < 16) :
    ∀ (count k : Nat) (st : Int × Nat), k + count ≤ 8 →
      decode_channel_go (spec_format_block hdrs codes) c ch st k count
        = (decode_run st (((codes.getD ch []).drop (k * 8)).take (count * 8))).2 := by
  intro count
  induction count with
  | zero =>
      intro k st _
      simp [decode_channel_go, decode_run]
  | succ m ih =>
      intro k st hk8
      rw [show decode_channel_go (spec_format_block hdrs codes) c ch st k (m + 1)
          = (decode_run st (word_nibbles
              (channel_word (spec_format_block hdrs codes) c ch k))).2
            ++ decode_channel_go (spec_format_block hdrs codes) c ch
              (decode_run st (word_nibbles
                (channel_word (spec_format_block hdrs codes) c ch k))).1 (k + 1) m
        from rfl]
      rw [spec_block_word hdrs codes c k ch hc hcodes (by omega) hch hwf hnib,
        ih (k + 1) _ (by omega)]
      rw [show (m + 1) * 8 = 8 + m * 8 from by ring, List.take_add,
        decode_run_append]
      congr 2
      rw [List.drop_drop]
      congr 1
      ring_nf

lemma spec_block_decode_channel (hdrs : List (Int × Nat)) (codes : List (List Nat))
    (c ch : Nat) (hc : hdrs.length = c) (hcodes : codes.length = c) (hch : ch < c)
    (hwf : ∀ cs ∈ codes, cs.length = 64)
    (hnib : ∀ cs ∈ codes, ∀ x ∈ cs, x < 16)
    (href1 : -32768 ≤ (hdrs.getD ch (0, 0)).1)
    (href2 : (hdrs.getD ch (0, 0)).1 ≤ 32767)
    (hidx : (hdrs.getD ch (0, 0)).2 ≤ 88) :
    decode_channel (spec_format_block hdrs codes) c ch
      = (decode_run ((hdrs.getD ch (0, 0)).1, (hdrs.getD ch (0, 0)).2)
          (codes.getD ch [])).2 := by
  have hhdr : decode_header (spec_format_block hdrs codes) ch
      = ((hdrs.getD ch (0, 0)).1, (hdrs.getD ch (0, 0)).2) := by
    unfold decode_header
    rw [show 4 * ch = 4 * ch + 0 from by omega,
      spec_block_header_byte hdrs codes ch 0 (by omega) (by omega),
      spec_block_header_byte hdrs codes ch 1 (by omega) (by omega),
      spec_block_header_byte hdrs codes ch 2 (by omega) (by omega)]
    show (u16_to_i16 (i16_to_u16 (hdrs.getD ch (0, 0)).1 % 256
        + 256 * (i16_to_u16 (hdrs.getD ch (0, 0)).1 / 256)),
      clamp_table_index ((hdrs.getD ch (0, 0)).2 : Int)) = _
    rw [Nat.mod_add_div (i16_to_u16 (hdrs.getD ch (0, 0)).1) 256,
      u16_i16_roundtrip _ href1 href2, clamp_table_index_coe _ hidx]
  have hcs : codes.getD ch [] ∈ codes := getD_mem [] codes ch (by omega)
  unfold decode_channel
  rw [hhdr, show CHUNKS_PER_BLOCK = 8 from rfl,
    decode_channel_go_spec hdrs codes c ch hc hcodes hch hwf hnib 8 0 _ (by omega)]
  rw [Nat.zero_mul, List.drop_zero, show 8 * 8 = (codes.getD ch []).length from by
    rw [hwf _ hcs], List.take_length]

lemma channel_codes_zero (l : Nat) (buf : List Int) (pchan : ADPCMChannel)
    (pos : Nat) : channel_codes l buf pchan pos 0 = ([], pchan) := rfl

lemma channel_codes_succ (l : Nat) (buf : List Int) (pchan : ADPCMChannel)
    (pos n : Nat) :
    channel_codes l buf pchan pos (n + 1)
      = ((encode_sample pchan l (buf.drop pos)).1 ::
           (channel_codes l buf (encode_sample pchan l (buf.drop pos)).2
             (pos + 1) n).1,
         (channel_codes l buf (encode_sample pchan l (buf.drop pos)).2
           (pos + 1) n).2) := rfl

lemma channel_codes_length (l : Nat) (buf : List Int) :
    ∀ (n : Nat) (pchan : ADPCMChannel) (pos : Nat),
      (channel_codes l buf pchan pos n).1.length = n := by
  intro n
  induction n with
  | zero => intro pchan pos; rfl
  | succ m ih =>
      intro pchan pos
      rw [channel_codes_succ]
      simp [ih]

lemma channel_codes_append (l : Nat) (buf : List Int) :
    ∀ (m n : Nat) (pchan : ADPCMChannel) (pos : Nat),
      channel_codes l buf pchan pos (m + n)
        = ((channel_codes l buf pchan pos m).1
            ++ (channel_codes l buf (channel_codes l buf pchan pos m).2
                 (pos + m) n).1,
           (channel_codes l buf (channel_codes l buf pchan pos m).2
             (pos + m) n).2) := by
  intro m
  induction m with
  | zero =>
      intro n pchan pos
      simp [channel_codes_zero]
  | succ m' ih =>
      intro n pchan pos
      rw [show m' + 1 + n = (m' + n) + 1 from by omega, channel_codes_succ,
        channel_codes_succ, ih n _ (pos + 1),
        show pos + 1 + m' = pos + (m' + 1) from by omega]
      rfl

lemma zipWith_congr_fun {α β γ : Type} (f g : α → β → γ)
    (h : ∀ a b, f a b = g a b) :
    ∀ (as : List α) (bs : List β), List.zipWith f as bs = List.zipWith g as bs := by
  intro as
  induction as with
  | nil => intro bs; rfl
  | cons a as ih =>
      intro bs
      cases bs with
      | nil => rfl
      | cons b bs => simp [h, ih]

lemma zipWith_congr_mem {α β γ : Type} (f g : α → β → γ) :
    ∀ (as : List α) (bs : List β),
      (∀ a ∈ as, ∀ b ∈ bs, f a b = g a b) →
      List.zipWith f as bs = List.zipWith g as bs := by
  intro as
  induction as with
  | nil => intro bs _; rfl
  | cons a as ih =>
      intro bs h
      cases bs with
      | nil => rfl
      | cons b bs =>
          simp only [List.zipWith_cons_cons]
          rw [h a (by simp) b (by simp),
            ih bs (fun x hx y hy => h x (by simp [hx]) y (by simp [hy]))]

lemma encode_bytes_go_succ (l : Nat) (buf : List Int) (cs i n : Nat)
    (pchan : ADPCMChannel) :
    encode_bytes_go l buf cs i (n + 1) pchan
      = (((encode_sample pchan l (buf.drop (cs + i * 2))).1
            ||| (encode_sample (encode_sample pchan l (buf.drop (cs + i * 2))).2 l
                  (buf.drop (cs + i * 2 + 1))).1 <<< 4)
          :: (encode_bytes_go l buf cs (i + 1) n
              (encode_sample (encode_sample pchan l (buf.drop (cs + i * 2))).2 l
                (buf.drop (cs + i * 2 + 1))).2).1,
         (encode_bytes_go l buf cs (i + 1) n
           (encode_sample (encode_sample pchan l (buf.drop (cs + i * 2))).2 l
             (buf.drop (cs + i * 2 + 1))).2).2) := rfl

/-- The byte loop of one chunk packs exactly the channel's code sequence
for the chunk's sample positions, two codes per byte low nibble first. -/
lemma encode_bytes_go_spec (l : Nat) (buf : List Int) (cs : Nat) :
    ∀ (count i : Nat) (pchan : ADPCMChannel),
      encode_bytes_go l buf cs i count pchan
        = (pack_pairs (channel_codes l buf pchan (cs + i * 2) (count * 2)).1,
           (channel_codes l buf pchan (cs + i * 2) (count * 2)).2) := by
  intro count
  induction count with
  | zero => intro i pchan; rfl
  | succ m ih =>
      intro i pchan
      rw [encode_bytes_go_succ, ih (i + 1),
        show (m + 1) * 2 = m * 2 + 1 + 1 from by ring,
        channel_codes_succ, channel_codes_succ,
        show cs + i * 2 + 1 + 1 = cs + (i + 1) * 2 from by ring]
      rfl

lemma encode_chunk_channels_cons (l chunk : Nat) (buf : List Int)
    (pchan : ADPCMChannel) (rest : List (List Int × ADPCMChannel)) :
    encode_chunk_channels l chunk ((buf, pchan) :: rest)
      = ((encode_bytes_go l buf (1 + chunk * SAMPLES_PER_CHUNK) 0
            (SAMPLES_PER_CHUNK / 2) pchan).1
          ++ (encode_chunk_channels l chunk rest).1,
         (encode_bytes_go l buf (1 + chunk * SAMPLES_PER_CHUNK) 0
           (SAMPLES_PER_CHUNK / 2) pchan).2
          :: (encode_chunk_channels l chunk rest).2) := rfl

/-- One chunk's bytes are, channel by channel, the packed codes of that
chunk's eight sample positions, and each channel's state advances by those
eight `encode_sample` steps. -/
lemma encode_chunk_channels_spec (l chunk : Nat) :
    ∀ (bufs : List (List Int)) (pchans : List ADPCMChannel),
      encode_chunk_channels l chunk (bufs.zip pchans)
        = ((List.zipWith (fun (buf : List Int) (st : ADPCMChannel) =>
              pack_pairs (channel_codes l buf st (1 + chunk * 8) 8).1)
              bufs pchans).flatten,
           List.zipWith (fun (buf : List Int) (st : ADPCMChannel) =>
             (channel_codes l buf st (1 + chunk * 8) 8).2) bufs pchans) := by
  intro bufs
  induction bufs with
  | nil => intro pchans; rfl
  | cons buf brest ih =>
      intro pchans
      cases pchans with
      | nil => rfl
      | cons st prest =>
          rw [List.zip_cons_cons, encode_chunk_channels_cons, ih,
            encode_bytes_go_spec]
          simp [SAMPLES_PER_CHUNK]

lemma segment_zero (l : Nat) (buf : List Int) (st : ADPCMChannel) (k m : Nat) :
    (channel_codes l buf st (1 + k * 8) ((m + 1) * 8)).1.take 8
      = (channel_codes l buf st (1 + k * 8) 8).1 := by
  rw [show (m + 1) * 8 = 8 + m * 8 from by ring, channel_codes_append]
  exact List.take_left' (channel_codes_length l buf 8 st (1 + k * 8))

lemma segment_succ (l : Nat) (buf : List Int) (st : ADPCMChannel) (k m j : Nat) :
    ((channel_codes l buf st (1 + k * 8) ((m + 1) * 8)).1.drop ((j + 1) * 8)).take 8
      = ((channel_codes l buf (channel_codes l buf st (1 + k * 8) 8).2
            (1 + (k + 1) * 8) (m * 8)).1.drop (j * 8)).take 8 := by
  rw [show (m + 1) * 8 = 8 + m * 8 from by ring, channel_codes_append]
  rw [show (j + 1) * 8 = 8 + j * 8 from by ring,
    show (8 : Nat) + j * 8
      = (channel_codes l buf st (1 + k * 8) 8).1.length + j * 8 from by
        rw [channel_codes_length]]
  show ((((channel_codes l buf st (1 + k * 8) 8).1
      ++ (channel_codes l buf (channel_codes l buf st (1 + k * 8) 8).2
           (1 + k * 8 + 8) (m * 8)).1).drop _).take 8) = _
  rw [List.drop_append, show 1 + k * 8 + 8 = 1 + (k + 1) * 8 from by ring]

lemma encode_chunks_go_succ (l : Nat) (bufs : List (List Int)) (k m : Nat)
    (pchans : List ADPCMChannel) :
    encode_chunks_go l bufs k (m + 1) pchans
      = ((encode_chunk_channels l k (bufs.zip pchans)).1
          ++ (encode_chunks_go l bufs (k + 1) m
               (encode_chunk_channels l k (bufs.zip pchans)).2).1,
         (encode_chunks_go l bufs (k + 1) m
           (encode_chunk_channels l k (bufs.zip pchans)).2).2) := rfl

/-- The chunk loop, started at chunk `k` for `count` chunks: its bytes are
the chunk-major layout — for each chunk in order, each channel's 4 packed
bytes in channel order — of each channel's code run over those chunks'
sample positions, and each channel's state advances by the whole
`count * 8`-sample run. -/
lemma encode_chunks_go_spec (l : Nat) (bufs : List (List Int)) :
    ∀ (count k : Nat) (pchans : List ADPCMChannel), bufs.length = pchans.length →
      encode_chunks_go l bufs k count pchans
        = (((List.range count).map (fun j =>
              (List.zipWith (fun (buf : List Int) (st : ADPCMChannel) =>
                  pack_pairs
                    (((channel_codes l buf st (1 + k * 8) (count * 8)).1.drop
                        (j * 8)).take 8))
                bufs pchans).flatten)).flatten,
           List.zipWith (fun (buf : List Int) (st : ADPCMChannel) =>
             (channel_codes l buf st (1 + k * 8) (count * 8)).2) bufs pchans) := by
  intro count
  induction count with
  | zero =>
      intro k pchans h
      refine Prod.ext rfl ?_
      exact (zipWith_snd bufs pchans h).symm
  | succ m ih =>
      intro k pchans h
      have hlen2 : bufs.length
          = (List.zipWith (fun (buf : List Int) (st : ADPCMChannel) =>
              (channel_codes l buf st (1 + k * 8) 8).2) bufs pchans).length := by
        rw [List.length_zipWith, h, min_self]
      rw [encode_chunks_go_succ, encode_chunk_channels_spec, ih (k + 1) _ hlen2]
      refine Prod.ext ?_ ?_
      · show (List.zipWith _ bufs pchans).flatten ++ _ = _
        rw [List.range_succ_eq_map, List.map_cons, List.flatten_cons, List.map_map]
        congr 1
        · refine congrArg List.flatten
            (zipWith_congr_fun _ _ (fun buf st => ?_) bufs pchans)
          rw [Nat.zero_mul, List.drop_zero, segment_zero]
        · refine congrArg List.flatten (List.map_congr_left (fun j hj => ?_))
          simp only [Function.comp_apply, Nat.succ_eq_add_one]
          refine congrArg List.flatten ?_
          rw [zipWith_zipWith_fuse]
          refine zipWith_congr_fun _ _ (fun buf st => ?_) bufs pchans
          exact congrArg pack_pairs (segment_succ l buf st k m j).symm
      · show List.zipWith _ bufs (List.zipWith _ bufs pchans) = _
        rw [zipWith_zipWith_fuse]
        refine zipWith_congr_fun _ _ (fun buf st => ?_) bufs pchans
        rw [show (m + 1) * 8 = 8 + m * 8 from by ring, channel_codes_append,
          show 1 + k * 8 + 8 = 1 + (k + 1) * 8 from by ring]

lemma quantize_nibble_lt (step : Nat) (delta : Int) :
    quantize_nibble step delta < 16 := by
  unfold quantize_nibble
  split
  · have : min ((4 * (-delta).toNat) / step) 7 ≤ 7 := min_le_right _ _
    omega
  · have : min ((4 * delta.toNat) / step) 7 ≤ 7 := min_le_right _ _
    omega

lemma candidate_foldl_snd_lt (step : Nat) (p s : Int) (nib : Nat)
    (next : Int → Nat → Nat) :
    ∀ (xs : List Nat) (acc : Nat × Nat), (∀ x ∈ xs, x < 16) → acc.2 < 16 →
      (xs.foldl (candidate_step step p s nib next) acc).2 < 16 := by
  intro xs
  induction xs with
  | nil => intro acc _ h; exact h
  | cons x xs ih =>
      intro acc hx h
      simp only [List.foldl_cons]
      have hstep : (candidate_step step p s nib next acc x).2 < 16 := by
        unfold candidate_step
        split
        · exact h
        · dsimp only
          split
          · exact h
          · split
            · exact h
            · exact hx x (by simp)
      exact ih _ (fun y hy => hx y (by simp [hy])) hstep

lemma calculate_minimum_error_snd_lt (l index : Nat) (p s : Int)
    (ss : List Int) : (calculate_minimum_error l index p s ss).2 < 16 := by
  rw [calculate_minimum_error.eq_def]
  cases l with
  | zero => exact quantize_nibble_lt _ _
  | succ m =>
      refine candidate_foldl_snd_lt _ _ _ _ _ _ _ (fun x hx => ?_)
        (quantize_nibble_lt _ _)
      simpa using hx

lemma encode_sample_fst_lt (pchan : ADPCMChannel) (l : Nat)
    (samples : List Int) : (encode_sample pchan l samples).1 < 16 := by
  unfold encode_sample
  exact calculate_minimum_error_snd_lt _ _ _ _ _

lemma channel_codes_mem_lt (l : Nat) (buf : List Int) :
    ∀ (n : Nat) (pchan : ADPCMChannel) (pos : Nat),
      ∀ x ∈ (channel_codes l buf pchan pos n).1, x < 16 := by
  intro n
  induction n with
  | zero => intro pchan pos x hx; simp [channel_codes_zero] at hx
  | succ m ih =>
      intro pchan pos x hx
      rw [channel_codes_succ] at hx
      rcases List.mem_cons.1 hx with h | h
      · rw [h]; exact encode_sample_fst_lt _ _ _
      · exact ih _ _ x h

/-- `encode_block`'s byte array is exactly the specification's block
layout: per-channel 4-byte headers (raw first window sample little-endian,
step index, reserved 0) in channel order, then the packed code runs over
window positions `1 .. 65`, chunk-major. -/
lemma encode_block_bytes_spec (st : EncoderState)
    (hlen : st.buffer.length = st.channels.length)
    (hidx : ∀ pchan ∈ st.channels, pchan.index ≤ 88) :
    encode_block_bytes st
      = spec_format_block
          (List.zipWith (fun (row : List Int) (pchan : ADPCMChannel) =>
            (row.headD 0, pchan.index)) st.buffer st.channels)
          (List.zipWith (fun (row : List Int) (pchan : ADPCMChannel) =>
            (channel_codes st.lookahead row
              { pchan with pcmdata := row.headD 0 } 1
              SAMPLES_PER_ADPCM_BLOCK).1) st.buffer st.channels) := by
  have hseed : st.buffer.length = (seeded_channels st).length := by
    unfold seeded_channels
    rw [List.length_zipWith, hlen, min_self]
  unfold encode_block_bytes spec_format_block encode_chunks
  congr 1
  · unfold seeded_channels
    rw [zipWith_zipWith_fuse, map_zipWith_fuse]
    refine congrArg List.flatten
      (zipWith_congr_mem _ _ st.buffer st.channels ?_)
    intro row _ pchan hpchan
    have hi : pchan.index % 256 = pchan.index :=
      Nat.mod_eq_of_lt (by have := hidx pchan hpchan; omega)
    simp [header_bytes, hi]
  · rw [encode_chunks_go_spec st.lookahead st.buffer CHUNKS_PER_BLOCK 0
      (seeded_channels st) hseed]
    dsimp only
    unfold seeded_channels
    simp only [zipWith_zipWith_fuse, map_zipWith_fuse]
    rfl

/-! ## Helper lemmas: agreement of the checked search with the total one -/

lemma head?_of_ne_nil (l : List Int) (h : l ≠ []) : l.head? = some (l.headD 0) := by
  cases l with
  | nil => exact absurd rfl h
  | cons x xs => rfl

lemma stepTable_getElem? (i : Nat) (h : i ≤ 88) :
    STEP_TABLE[i]? = some (stepTable i) := by
  have hlen89 : STEP_TABLE.length = 89 := by decide
  have hlen : i < STEP_TABLE.length := by omega
  rw [List.getElem?_eq_getElem hlen]
  unfold stepTable
  rw [List.getD_eq_getElem STEP_TABLE 0 hlen]

lemma stepTable_ne_zero (i : Nat) (h : i ≤ 88) : ¬ (stepTable i = 0) := by
  have := stepTable_ge_seven i (by omega)
  omega

lemma candidate_step_chk_agree (step : Nat) (pcm sample : Int) (nibble : Nat)
    (nextO : Int → Nat → Option Nat) (next : Int → Nat → Nat)
    (hag : ∀ p n, nextO p n = some (next p n)) (a : Nat × Nat) (nib2 : Nat) :
    candidate_step_chk step pcm sample nibble nextO a nib2
      = some (candidate_step step pcm sample nibble next a nib2) := by
  simp only [candidate_step_chk, candidate_step, hag]
  split_ifs <;> rfl

lemma foldl_chk_agree (step : Nat) (pcm sample : Int) (nibble : Nat)
    (nextO : Int → Nat → Option Nat) (next : Int → Nat → Nat)
    (hag : ∀ p n, nextO p n = some (next p n)) :
    ∀ (l : List Nat) (a : Nat × Nat),
      l.foldl (fold_step_chk step pcm sample nibble nextO) (some a)
        = some (l.foldl (candidate_step step pcm sample nibble next) a) := by
  intro l
  induction l with
  | nil => intro a; rfl
  | cons x xs ih =>
      intro a
      rw [List.foldl_cons, List.foldl_cons,
        show fold_step_chk step pcm sample nibble nextO (some a) x
          = candidate_step_chk step pcm sample nibble nextO a x from rfl,
        candidate_step_chk_agree step pcm sample nibble nextO next hag a x]
      exact ih _

lemma cme_chk_agree :
    ∀ (lookahead index : Nat) (pcmdata sample : Int) (samples : List Int),
      index ≤ 88 → lookahead ≤ samples.length →
      calculate_minimum_error_chk lookahead index pcmdata sample samples
        = some (calculate_minimum_error lookahead index pcmdata sample samples) := by
  intro lookahead
  induction lookahead with
  | zero =>
      intro index pcm sample samples hidx _
      rw [calculate_minimum_error_chk.eq_def, calculate_minimum_error.eq_def]
      simp only [stepTable_getElem? index hidx, if_neg (stepTable_ne_zero index hidx)]
  | succ l ih =>
      intro index pcm sample samples hidx hlen
      have hne : samples ≠ [] := by
        intro h
        rw [h] at hlen
        simp at hlen
      have hhead := head?_of_ne_nil samples hne
      have htail : l ≤ samples.tail.length := by
        rw [List.length_tail]
        omega
      have hag : ∀ (p : Int) (n : Nat),
          (calculate_minimum_error_chk l
            (clamp_table_index ((index : Int) + indexTable (n % 8)))
            p (samples.headD 0) samples.tail).map Prod.fst
          = some ((calculate_minimum_error l
              (clamp_table_index ((index : Int) + indexTable (n % 8)))
              p (samples.headD 0) samples.tail).1) := by
        intro p n
        rw [ih _ p (samples.headD 0) samples.tail (clamp_table_index_le _) htail]
        rfl
      rw [calculate_minimum_error_chk.eq_def, calculate_minimum_error.eq_def]
      simp only [stepTable_getElem? index hidx, if_neg (stepTable_ne_zero index hidx),
        hhead, hag]
      rw [foldl_chk_agree _ _ _ _ _
        (fun pcm nib => (calculate_minimum_error l
          (clamp_table_index ((index : Int) + indexTable (nib % 8))) pcm
          (samples.headD 0) samples.tail).1)
        (fun p n => rfl)]

lemma encode_sample_chk_agree (pchan : ADPCMChannel) (lookahead : Nat)
    (samples : List Int) (hidx : pchan.index ≤ 88) (hne : samples ≠ []) :
    encode_sample_chk pchan lookahead samples
      = some (encode_sample pchan lookahead samples) := by
  have hhead := head?_of_ne_nil samples hne
  have hs := stepTable_getElem? pchan.index hidx
  simp only [encode_sample_chk, encode_sample, hhead, hs,
    cme_chk_agree _ pchan.index pchan.pcmdata (samples.headD 0) samples.tail hidx
      (min_le_right lookahead samples.tail.length)]

/-! ## Claim theorems -/

lemma initial_index_go_spec (avg : Int) : ∀ count i,
    (initial_index_go avg i count = STEP_TABLE.length - 1 ∧
      ∀ j, i ≤ j → j < i + count → table_midpoint j ≤ avg)
    ∨ (i ≤ initial_index_go avg i count
        ∧ initial_index_go avg i count < i + count
        ∧ avg < table_midpoint (initial_index_go avg i count)
        ∧ ∀ j, i ≤ j → j < initial_index_go avg i count → table_midpoint j ≤ avg) := by
  intro count
  induction count with
  | zero =>
      intro i
      left
      exact ⟨rfl, fun j h1 h2 => absurd h2 (by omega)⟩
  | succ m ih =>
      intro i
      by_cases hb : avg < table_midpoint i
      · right
        simp only [initial_index_go, if_pos hb]
        exact ⟨le_refl i, by omega, hb, fun j h1 h2 => absurd h2 (by omega)⟩
      · simp only [initial_index_go, if_neg hb]
        rcases ih (i + 1) with ⟨h1, h2⟩ | ⟨h1, h2, h3, h4⟩
        · left
          refine ⟨h1, fun j hj1 hj2 => ?_⟩
          rcases Nat.eq_or_lt_of_le hj1 with rfl | hj
          · exact not_lt.mp hb
          · exact h2 j hj (by omega)
        · right
          refine ⟨by omega, by omega, h3, fun j hj1 hj2 => ?_⟩
          rcases Nat.eq_or_lt_of_le hj1 with rfl | hj
          · exact not_lt.mp hb
          · exact h4 j hj hj2

lemma initial_index_spec (avg : Int) :
    initial_index avg ≤ 88
    ∧ (initial_index avg < 88 → avg < table_midpoint (initial_index avg))
    ∧ (∀ j < initial_index avg, table_midpoint j ≤ avg) := by
  have hlen : STEP_TABLE.length - 1 = 88 := by decide
  have h := initial_index_go_spec avg (STEP_TABLE.length - 1) 0
  rw [hlen] at h
  unfold initial_index
  rw [hlen]
  rcases h with ⟨h1, h2⟩ | ⟨-, h2, h3, h4⟩
  · rw [h1]
    exact ⟨le_refl _, fun hlt => absurd hlt (by omega),
      fun j hj => h2 j (by omega) (by omega)⟩
  · exact ⟨by omega, fun _ => h3, fun j hj => h4 j (by omega) hj⟩

/-- Claim C4: predictor initialization runs exactly once per session (it
is a no-op while the flag is set, and sets the flag so a repeat is a
no-op); for each channel it iterates
`avg = (avg + (sample[i] - sample[i-1])) / 8` with truncating division in
that exact order over the buffered window, seeds the channel's step index
to the smallest table index `i` with `avg < (t[i] + t[i+1]) / 2`
(defaulting to 88 when no midpoint exceeds `avg`), and seeds the
channel's predicted sample to 0. -/
theorem C4_predictor_seeding :
    (∀ st, st.predictors_initialized = true → init_predictors st = st)
    ∧ (∀ st, (init_predictors st).predictors_initialized = true)
    ∧ (∀ st, init_predictors (init_predictors st) = init_predictors st)
    ∧ (∀ x rest, decaying_avg (x :: rest) = decaying_avg_go x rest 0)
    ∧ (∀ prev x rest avg, decaying_avg_go prev (x :: rest) avg =
        decaying_avg_go x rest (Int.tdiv (avg + (x - prev)) 8))
    ∧ (∀ st, st.predictors_initialized = false →
        (init_predictors st).channels =
          st.buffer.map (fun row => ⟨0, initial_index (decaying_avg row)⟩))
    ∧ (∀ avg : Int, initial_index avg ≤ 88
        ∧ (initial_index avg < 88 → avg < table_midpoint (initial_index avg))
        ∧ (∀ j < initial_index avg, table_midpoint j ≤ avg)) := by
  refine ⟨fun st h => by simp [init_predictors, h],
          fun st => ?_,
          fun st => ?_,
          fun x rest => rfl,
          fun prev x rest avg => rfl,
          fun st h => by simp [init_predictors, h],
          initial_index_spec⟩
  · unfold init_predictors
    split
    · assumption
    · rfl
  · by_cases h : st.predictors_initialized
    · simp [init_predictors, h]
    · simp [init_predictors, h]

/-- Witness for C4: idempotence at a concrete fresh encoder, and the
seed-index characterisation at `avg = 8` (where the chosen index is 2). -/
theorem C4_witness :
    init_predictors (init_predictors (XboxADPCMEncoder_new 1 0)) =
      init_predictors (XboxADPCMEncoder_new 1 0)
    ∧ (8 : Int) < table_midpoint (initial_index 8) :=
  ⟨C4_predictor_seeding.2.2.1 _,
   (C4_predictor_seeding.2.2.2.2.2.2 8).2.1 (by decide)⟩

/-- Claim C7: for every step value taken from the step table and every
4-bit code, `calculate_delta` returns
`(step>>3) + (step>>2 if bit0) + (step>>1 if bit1) + (step if bit2)`,
with truncating right shifts (stated here as truncating divisions by 8, 4
and 2), and the sum is negated when bit 3 of the code is set. -/
theorem C7_calculate_delta_formula :
    ∀ i < 89, ∀ code < 16,
      calculate_delta (stepTable i) code =
        (if code / 8 % 2 = 1 then (-1 : Int) else 1) *
          ((stepTable i / 8
            + (if code % 2 = 1 then stepTable i / 4 else 0)
            + (if code / 2 % 2 = 1 then stepTable i / 2 else 0)
            + (if code / 4 % 2 = 1 then stepTable i else 0) : Nat) : Int) := by
  decide

/-- Witness for C7 at step index 26 (step 88) and code 11. -/
theorem C7_witness :
    calculate_delta (stepTable 26) 11 =
      (if 11 / 8 % 2 = 1 then (-1 : Int) else 1) *
        ((stepTable 26 / 8
          + (if 11 % 2 = 1 then stepTable 26 / 4 else 0)
          + (if 11 / 2 % 2 = 1 then stepTable 26 / 2 else 0)
          + (if 11 / 4 % 2 = 1 then stepTable 26 else 0) : Nat) : Int) :=
  C7_calculate_delta_formula 26 (by decide) 11 (by decide)

/-- Claim C9: `clamp_table_index` always lands in `[0, 88]` (for every
`isize`, in particular far negative and far positive inputs) and
`clamp_sample` always lands in `[-32768, 32767]`; moreover every value
the encoder or decoder ever uses as a step-table index is produced by
this clamp or by the bounded seed search — the decoder's header parse and
per-sample update, the encoder's per-sample update, and the predictor
seeding all yield indices `≤ 88` — so the 89-entry step table is never
indexed out of range. -/
theorem C9_clamping_and_table_index_range :
    (∀ x : Int, 0 ≤ (clamp_table_index x : Int) ∧ clamp_table_index x ≤ 88)
    ∧ (∀ x : Int, -32768 ≤ clamp_sample x ∧ clamp_sample x ≤ 32767)
    ∧ (∀ buf ch, (decode_header buf ch).2 ≤ 88)
    ∧ (∀ st nib, (decode_step st nib).1.2 ≤ 88)
    ∧ (∀ pchan lookahead samples,
        (encode_sample pchan lookahead samples).2.index ≤ 88)
    ∧ (∀ avg, initial_index avg ≤ 88)
    ∧ (∀ st, st.predictors_initialized = false →
        ∀ c ∈ (init_predictors st).channels, c.index ≤ 88) := by
  refine ⟨fun x => ⟨by positivity, clamp_table_index_le x⟩,
          fun x => ⟨clamp_sample_lb x, clamp_sample_ub x⟩,
          fun buf ch => clamp_table_index_le _,
          fun st nib => clamp_table_index_le _,
          fun pchan lookahead samples => clamp_table_index_le _,
          fun avg => initial_index_le avg,
          fun st h c hc => ?_⟩
  simp only [init_predictors, h, Bool.false_eq_true, if_false, List.mem_map] at hc
  obtain ⟨row, -, rfl⟩ := hc
  exact initial_index_le _

/-- Witness for C9 at the extremes `isize::MIN`-like and `i32`-like
inputs and at a concretely seeded encoder channel. -/
theorem C9_witness :
    clamp_table_index (-(2 ^ 63)) ≤ 88
    ∧ clamp_table_index (2 ^ 63) ≤ 88
    ∧ (-32768 ≤ clamp_sample (2 ^ 31 - 1) ∧ clamp_sample (2 ^ 31 - 1) ≤ 32767)
    ∧ ({ pcmdata := 0, index := initial_index (decaying_avg ([] : List Int)) } :
        ADPCMChannel).index ≤ 88 :=
  ⟨(C9_clamping_and_table_index_range.1 _).2,
   (C9_clamping_and_table_index_range.1 _).2,
   C9_clamping_and_table_index_range.2.1 _,
   C9_clamping_and_table_index_range.2.2.2.2.2.2
     (XboxADPCMEncoder_new 2 3) rfl _ (by decide)⟩

/-- Claim C6: a failed sink call makes the triggering call return exactly
the sink's error, with no retry, and the instance keeps exactly the state
it had when the sink call was made: a decoder whose block write fails
keeps the full block's bytes buffered (nothing cleared), an encoder whose
block write fails keeps its already-shifted buffer and updated channel
state (consumed samples are not rolled back), and a failed reserve call
aborts `decode`/`encode` before any input is consumed. -/
theorem C6_sink_error_propagation :
    (∀ (E σ : Type) (sink : DecodeSink E σ) (st : DecoderState) (s : σ) (e : E),
        sink.write s (block_output st) = .error e →
        decode_block sink st s = (st, .error e))
    ∧ (∀ (E σ : Type) (sink : EncodeSink E σ) (st : EncoderState) (s : σ) (e : E),
        sink.write s (encode_block_bytes st) = .error e →
        encode_block sink st s =
          ({ st with
              channels := (encode_chunks st.lookahead st.buffer (seeded_channels st)).2,
              buffer := st.buffer.map (fun row =>
                (row.drop (PCM_BUFFER_CAPACITY - PCM_BUFFER_EXTRA)).take PCM_BUFFER_EXTRA) },
            .error e))
    ∧ (∀ (E σ : Type) (sink : DecodeSink E σ) (st : DecoderState) (s : σ)
          (input : List Nat) (e : E),
        0 < (input.length + st.buffer.length + (ADPCM_BLOCK_SIZE * st.num_channels - 1)) /
              (ADPCM_BLOCK_SIZE * st.num_channels) →
        sink.reserve s
          ((input.length + st.buffer.length + (ADPCM_BLOCK_SIZE * st.num_channels - 1)) /
              (ADPCM_BLOCK_SIZE * st.num_channels) * SAMPLES_PER_ADPCM_BLOCK) = .error e →
        decode sink st s input = .out st (.error e))
    ∧ (∀ (E σ : Type) (sink : EncodeSink E σ) (st : EncoderState) (s : σ)
          (input : List (List Int)) (e : E),
        st.num_channels = input.length →
        input.any (fun chan => chan.length ≠ (input.headD []).length) = false →
        (input.headD []).length + buffer_size st ≠ 0 →
        sink.reserve s
          (((input.headD []).length + buffer_size st + (SAMPLES_PER_ADPCM_BLOCK - 1)) /
              SAMPLES_PER_ADPCM_BLOCK * ADPCM_BLOCK_SIZE * st.num_channels) = .error e →
        encode sink st s input = .out st (.error e)) := by
  refine ⟨fun E σ sink st s e h => ?_, fun E σ sink st s e h => ?_,
          fun E σ sink st s input e hpos h => ?_,
          fun E σ sink st s input e hch heq hne h => ?_⟩
  · simp only [decode_block, h]
  · simp only [encode_block, h]
  · simp only [decode, if_pos hpos, h]
  · rw [hch] at h
    simp only [encode, hch, ne_eq, not_true_eq_false, if_neg, if_false, heq,
      Bool.false_eq_true, if_pos hne, h]

/-- Witness for C6: a decoder holding one full block whose sink write
fails returns the error and keeps all 36 bytes buffered. -/
theorem C6_witness :
    decode_block fail_decode_sink ⟨1, List.replicate 36 5⟩ () =
      (⟨1, List.replicate 36 5⟩, .error ()) :=
  C6_sink_error_propagation.1 Unit Unit fail_decode_sink ⟨1, List.replicate 36 5⟩ () () rfl

set_option maxRecDepth 100000 in
/-- Claim C1 concerns streaming equivalence of `decode` across arbitrary
call boundaries.  The code violates it: the loading loop computes
`bytes_that_can_be_loaded = bytes_free.min(input_len)` from the total
input length instead of the bytes not yet loaded, so a call whose input
runs past a block boundary by less than the following load reads
`input[bytes_loaded + b]` out of bounds and panics.  Concretely, a
1-channel decoder fed 37 zero bytes in one call crashes, while the same
37 bytes split at the block boundary (36, then 1) decode fine — so this
is the code slip refuting the claimed equivalence, not a different
intended behaviour. -/
theorem C1_decode_chunking_crashes :
    decode (vec_decode_sink 1) (XboxADPCMDecoder_new 1) [[]] (List.replicate 37 0) = .crashed
    ∧ decode (vec_decode_sink 1) (XboxADPCMDecoder_new 1) [[]] (List.replicate 36 0) =
        .out (XboxADPCMDecoder_new 1) (.ok [List.replicate 64 0])
    ∧ decode (vec_decode_sink 1) ⟨1, []⟩ [List.replicate 64 0] [0] =
        .out ⟨1, [0]⟩ (.ok [List.replicate 64 0]) :=
  ⟨rfl, rfl, rfl⟩


set_option maxRecDepth 100000 in
/-- Claim C3: `finish` with a non-empty buffer zero-pads the window,
forces predictor initialisation, packs exactly one block of full size
(`ADPCM_BLOCK_SIZE × num_channels` bytes, built exactly like a full
block from the zero-padded window) and then resets (flag cleared, buffer
emptied); encoding 10 samples on one channel and finishing emits exactly
one 36-byte block whose decode yields 64 samples, not 10; with an empty
buffer `finish` writes nothing and only resets. -/
theorem C3_finish_tail_block :
    (∀ (st : EncoderState) (s : List Nat),
        buffer_size st ≠ 0 →
        st.buffer.length = st.num_channels →
        st.channels.length = st.num_channels →
        ∃ st2 bytes,
          finish vec_encode_sink st s = (st2, .ok (s ++ bytes))
          ∧ bytes = encode_block_bytes (pad_state (init_predictors st))
          ∧ bytes.length = ADPCM_BLOCK_SIZE * st.num_channels
          ∧ (init_predictors st).predictors_initialized = true
          ∧ st2.predictors_initialized = false
          ∧ st2.buffer = List.replicate st.num_channels []
          ∧ st2.num_channels = st.num_channels)
    ∧ (∀ (E σ : Type) (sink : EncodeSink E σ) (st : EncoderState) (s : σ),
        buffer_size st = 0 → finish sink st s = (encoder_reset st, .ok s))
    ∧ (∃ st1 st2 bytes out,
        encode vec_encode_sink (XboxADPCMEncoder_new 1 0) [] [List.replicate 10 5] =
          .out st1 (.ok [])
        ∧ finish vec_encode_sink st1 [] = (st2, .ok bytes)
        ∧ bytes.length = ADPCM_BLOCK_SIZE
        ∧ decode (vec_decode_sink 1) (XboxADPCMDecoder_new 1) [[]] bytes =
            .out (XboxADPCMDecoder_new 1) (.ok out)
        ∧ out.length = 1 ∧ (out.headD []).length = SAMPLES_PER_ADPCM_BLOCK) := by
  refine ⟨fun st s h0 h1 h2 => finish_one_block st s h0 h1 h2,
          fun E σ sink st s h0 => ?_,
          ⟨_, _, _, _, rfl, rfl, rfl, rfl, rfl, rfl⟩⟩
  simp only [finish, h0, ne_eq, not_true_eq_false, if_neg, if_false]

/-- Claim C5: feeding an encoder exactly `64·k` samples per channel (for
`k ≥ 1`, `1 ≤ c ≤ 8` channels) and calling `finish` writes exactly
`k × c × ADPCM_BLOCK_SIZE` bytes to the sink; each successfully decoded
block appends exactly `SAMPLES_PER_ADPCM_BLOCK = 64` samples to every
channel; and decoding `n` whole multi-channel blocks of bytes (of any
content) from a fresh decoder yields exactly `n × 64` samples per
channel. -/
theorem C5_format_size_invariant :
    (∀ (k c look : Nat) (input : List (List Int)),
        1 ≤ k → 1 ≤ c → c ≤ 8 →
        input.length = c →
        (∀ row ∈ input, row.length = SAMPLES_PER_ADPCM_BLOCK * k) →
        ∃ st1 s1 st2 s2,
          encode vec_encode_sink (XboxADPCMEncoder_new c look) [] input
            = .out st1 (.ok s1)
          ∧ finish vec_encode_sink st1 s1 = (st2, .ok s2)
          ∧ s2.length = k * (ADPCM_BLOCK_SIZE * c))
    ∧ (∀ (c : Nat) (st : DecoderState) (σ : List (List Int)),
        c ≤ 8 → st.num_channels = c → σ.length = c →
        ∃ σ', decode_block (vec_decode_sink c) st σ = ({ st with buffer := [] }, .ok σ')
          ∧ σ'.length = c
          ∧ ∀ i < c, (σ'.getD i []).length =
              (σ.getD i []).length + SAMPLES_PER_ADPCM_BLOCK)
    ∧ (∀ (n c : Nat) (input : List Nat) (σ : List (List Int)),
        1 ≤ c → c ≤ 8 →
        input.length = ADPCM_BLOCK_SIZE * c * n → σ.length = c →
        ∃ σ', decode (vec_decode_sink c) (XboxADPCMDecoder_new c) σ input
            = .out (XboxADPCMDecoder_new c) (.ok σ')
          ∧ σ'.length = c
          ∧ ∀ i < c, (σ'.getD i []).length =
              (σ.getD i []).length + SAMPLES_PER_ADPCM_BLOCK * n) := by
  refine ⟨fun k c look input hk hc hc8 hinlen hin => ?_,
          fun c st σ hc8 hch hσ => decode_block_vec c hc8 st σ hch hσ,
          fun n c input σ hc hc8 hinlen hσ => ?_⟩
  · obtain ⟨st1, s1, henc, hs1len, hnum1, hch1, hbuf1, hrows1⟩ :=
      encode_fresh c look k hc hk input hinlen hin
    have hne : st1.buffer ≠ [] := List.length_pos.mp (by omega)
    have h0 : buffer_size st1 ≠ 0 := by
      rw [buffer_size_of_rows st1 64 hne hrows1]
      omega
    obtain ⟨st2, bytes2, hfin, -, hbytes2len, -, -, -, -⟩ :=
      finish_one_block st1 s1 h0 (hbuf1.trans hnum1.symm) (hch1.trans hnum1.symm)
    refine ⟨st1, s1, st2, s1 ++ bytes2, henc, hfin, ?_⟩
    rw [List.length_append, hs1len, hbytes2len, hnum1]
    obtain ⟨k1, rfl⟩ : ∃ k1, k = k1 + 1 := ⟨k - 1, by omega⟩
    simp only [Nat.add_sub_cancel]
    rw [Nat.succ_mul]
  · have hstep : decode (vec_decode_sink c) (XboxADPCMDecoder_new c) σ input
        = decode_loop (vec_decode_sink c) (input.length + 2)
            (XboxADPCMDecoder_new c) σ input 0 := by
      simp only [decode, vec_decode_sink, ite_self]
    obtain ⟨σ', hloop, hσ'len, hσ'inc⟩ :=
      decode_loop_blocks c hc hc8 input n (input.length + 2) 0 σ
        (by omega) hσ
        (by
          have hBpos : 0 < ADPCM_BLOCK_SIZE * c :=
            Nat.mul_pos (by norm_num [ADPCM_BLOCK_SIZE]) hc
          have := Nat.le_mul_of_pos_left n hBpos
          omega)
    exact ⟨σ', hstep.trans hloop, hσ'len, hσ'inc⟩

/-- Witness for C5: a 1-channel decoder holding one full block of zero
bytes appends exactly 64 samples to its (empty) output channel. -/
theorem C5_witness :
    ∃ σ', decode_block (vec_decode_sink 1) ⟨1, List.replicate 36 0⟩ [[]] =
        (⟨1, []⟩, .ok σ')
      ∧ σ'.length = 1
      ∧ ∀ i < 1, (σ'.getD i []).length =
          (([[]] : List (List Int)).getD i []).length + SAMPLES_PER_ADPCM_BLOCK :=
  C5_format_size_invariant.2.1 1 ⟨1, List.replicate 36 0⟩ [[]]
    (by omega) rfl rfl

/-- Witness for C3: a fresh two-channel encoder has an empty buffer, so
`finish` writes nothing and only resets. -/
theorem C3_witness :
    finish vec_encode_sink (XboxADPCMEncoder_new 2 1) [] =
      (encoder_reset (XboxADPCMEncoder_new 2 1), .ok []) :=
  C3_finish_tail_block.2.1 Unit (List Nat) vec_encode_sink
    (XboxADPCMEncoder_new 2 1) [] rfl

/-- Claim C10: the recursive lookahead search is total on the source's
call pattern.  The checked search — which returns `none` exactly where
the source would read out of bounds or divide by zero — returns `some`
of the total search's result whenever the step index is in `[0, 88]` and
the lookahead does not exceed the number of remaining future samples;
`encode_sample` caps the effective lookahead at that number, so its
checked form succeeds on every non-empty sample slice; and no division
by zero is possible because every step-table entry is at least 7. -/
theorem C10_search_total :
    (∀ (lookahead index : Nat) (pcmdata sample : Int) (samples : List Int),
        index ≤ 88 → lookahead ≤ samples.length →
        calculate_minimum_error_chk lookahead index pcmdata sample samples
          = some (calculate_minimum_error lookahead index pcmdata sample samples))
    ∧ (∀ (pchan : ADPCMChannel) (lookahead : Nat) (samples : List Int),
        pchan.index ≤ 88 → samples ≠ [] →
        encode_sample_chk pchan lookahead samples
          = some (encode_sample pchan lookahead samples))
    ∧ (∀ (lookahead : Nat) (samples : List Int),
        min lookahead samples.tail.length ≤ samples.tail.length)
    ∧ (∀ i < 89, 7 ≤ stepTable i) :=
  ⟨cme_chk_agree, encode_sample_chk_agree,
   fun lookahead samples => min_le_right lookahead samples.tail.length,
   stepTable_ge_seven⟩

/-- Witness for C10: the checked `encode_sample` succeeds on a concrete
three-sample slice with a fresh channel state and lookahead 3. -/
theorem C10_witness :
    encode_sample_chk ⟨0, 0⟩ 3 [5, 9, 100]
      = some (encode_sample ⟨0, 0⟩ 3 [5, 9, 100]) :=
  C10_search_total.2.1 ⟨0, 0⟩ 3 [5, 9, 100] (by decide) (by decide)

set_option maxRecDepth 100000 in
/-- Claim C8: encoding 64 zero samples on 1 channel with lookahead 0 and
finishing produces exactly one 36-byte block — the specification-format
block with reference sample 0, step index 0 and all 64 codes equal to the
zero-delta code 0, i.e. 36 zero bytes — and decoding it yields exactly 64
samples, all 0. -/
theorem C8_silence_block :
    ∃ st1 st2,
      encode vec_encode_sink (XboxADPCMEncoder_new 1 0) [] [List.replicate 64 0] =
        .out st1 (.ok [])
      ∧ finish vec_encode_sink st1 [] =
          (st2, .ok (spec_format_block [(0, 0)] [List.replicate 64 0]))
      ∧ spec_format_block [(0, 0)] [List.replicate 64 0] = List.replicate 36 0
      ∧ (spec_format_block [(0, 0)] [List.replicate 64 0]).length = ADPCM_BLOCK_SIZE
      ∧ decode (vec_decode_sink 1) (XboxADPCMDecoder_new 1) [[]]
          (spec_format_block [(0, 0)] [List.replicate 64 0]) =
          .out (XboxADPCMDecoder_new 1) (.ok [List.replicate 64 0]) :=
  ⟨_, _, rfl, rfl, rfl, rfl, rfl⟩

/-- Claim C2: every block the encoder emits for `c` channels is exactly
the specification's binary layout — for each channel in sequence a 4-byte
header (little-endian `uint16` raw reference sample, the window's first
sample; `uint8` step index; reserved byte written 0), followed by the
channel's 32 bytes of packed 4-bit codes, two per byte low nibble first,
in 8 chunk groups of 4 bytes, chunk-major across the block — and the
decoder consumes the same layout: decoding channel `ch` of such a block
runs the ADPCM reconstruction on exactly that channel's header fields and
code sequence. -/
theorem C2_block_format (st : EncoderState) (ch : Nat)
    (hlen : st.buffer.length = st.channels.length)
    (hidx : ∀ pchan ∈ st.channels, pchan.index ≤ 88)
    (hrange : ∀ row ∈ st.buffer, -32768 ≤ row.headD 0 ∧ row.headD 0 ≤ 32767)
    (hch : ch < st.channels.length) :
    encode_block_bytes st
      = spec_format_block
          (List.zipWith (fun (row : List Int) (pchan : ADPCMChannel) =>
            (row.headD 0, pchan.index)) st.buffer st.channels)
          (List.zipWith (fun (row : List Int) (pchan : ADPCMChannel) =>
            (channel_codes st.lookahead row
              { pchan with pcmdata := row.headD 0 } 1
              SAMPLES_PER_ADPCM_BLOCK).1) st.buffer st.channels)
    ∧ decode_channel
        (spec_format_block
          (List.zipWith (fun (row : List Int) (pchan : ADPCMChannel) =>
            (row.headD 0, pchan.index)) st.buffer st.channels)
          (List.zipWith (fun (row : List Int) (pchan : ADPCMChannel) =>
            (channel_codes st.lookahead row
              { pchan with pcmdata := row.headD 0 } 1
              SAMPLES_PER_ADPCM_BLOCK).1) st.buffer st.channels))
        st.channels.length ch
      = (decode_run
          (((List.zipWith (fun (row : List Int) (pchan : ADPCMChannel) =>
              (row.headD 0, pchan.index)) st.buffer st.channels).getD ch (0, 0)).1,
           ((List.zipWith (fun (row : List Int) (pchan : ADPCMChannel) =>
              (row.headD 0, pchan.index)) st.buffer st.channels).getD ch (0, 0)).2)
          ((List.zipWith (fun (row : List Int) (pchan : ADPCMChannel) =>
            (channel_codes st.lookahead row
              { pchan with pcmdata := row.headD 0 } 1
              SAMPLES_PER_ADPCM_BLOCK).1) st.buffer st.channels).getD ch [])).2 := by
  have hbuf : ch < st.buffer.length := by omega
  have hhdrs : (List.zipWith (fun (row : List Int) (pchan : ADPCMChannel) =>
      (row.headD 0, pchan.index)) st.buffer st.channels).length
      = st.channels.length := by
    rw [List.length_zipWith, hlen, min_self]
  have hcodes : (List.zipWith (fun (row : List Int) (pchan : ADPCMChannel) =>
      (channel_codes st.lookahead row { pchan with pcmdata := row.headD 0 } 1
        SAMPLES_PER_ADPCM_BLOCK).1) st.buffer st.channels).length
      = st.channels.length := by
    rw [List.length_zipWith, hlen, min_self]
  have hwf : ∀ cs ∈ (List.zipWith (fun (row : List Int) (pchan : ADPCMChannel) =>
      (channel_codes st.lookahead row { pchan with pcmdata := row.headD 0 } 1
        SAMPLES_PER_ADPCM_BLOCK).1) st.buffer st.channels), cs.length = 64 := by
    intro cs hcs
    obtain ⟨row, pchan, hrc⟩ := mem_zipWith_imp _ _ _ cs hcs
    rw [hrc, channel_codes_length]
    decide
  have hnib : ∀ cs ∈ (List.zipWith (fun (row : List Int) (pchan : ADPCMChannel) =>
      (channel_codes st.lookahead row { pchan with pcmdata := row.headD 0 } 1
        SAMPLES_PER_ADPCM_BLOCK).1) st.buffer st.channels), ∀ x ∈ cs, x < 16 := by
    intro cs hcs
    obtain ⟨row, pchan, hrc⟩ := mem_zipWith_imp _ _ _ cs hcs
    rw [hrc]
    exact channel_codes_mem_lt _ _ _ _ _
  have hget : (List.zipWith (fun (row : List Int) (pchan : ADPCMChannel) =>
      (row.headD 0, pchan.index)) st.buffer st.channels).getD ch (0, 0)
      = ((st.buffer.getD ch []).headD 0, (st.channels.getD ch ⟨0, 0⟩).index) :=
    zipWith_getD _ st.buffer st.channels ch (0, 0) [] ⟨0, 0⟩ hbuf hch
  have hrow := hrange (st.buffer.getD ch []) (getD_mem [] st.buffer ch hbuf)
  have hpch := hidx (st.channels.getD ch ⟨0, 0⟩) (getD_mem ⟨0, 0⟩ st.channels ch hch)
  refine ⟨encode_block_bytes_spec st hlen hidx, ?_⟩
  exact spec_block_decode_channel _ _ st.channels.length ch hhdrs hcodes hch hwf
    hnib (by rw [hget]; exact hrow.1) (by rw [hget]; exact hrow.2)
    (by rw [hget]; exact hpch)

/-- Witness for C2: the fresh 1-channel encoder state (empty window,
default channel): its block bytes are the specification layout, and
decoding channel 0 of that layout is the plain code-sequence
reconstruction. -/
theorem C2_witness :
    encode_block_bytes (XboxADPCMEncoder_new 1 0)
      = spec_format_block
          (List.zipWith (fun (row : List Int) (pchan : ADPCMChannel) =>
            (row.headD 0, pchan.index)) (XboxADPCMEncoder_new 1 0).buffer
            (XboxADPCMEncoder_new 1 0).channels)
          (List.zipWith (fun (row : List Int) (pchan : ADPCMChannel) =>
            (channel_codes (XboxADPCMEncoder_new 1 0).lookahead row
              { pchan with pcmdata := row.headD 0 } 1
              SAMPLES_PER_ADPCM_BLOCK).1) (XboxADPCMEncoder_new 1 0).buffer
            (XboxADPCMEncoder_new 1 0).channels)
    ∧ decode_channel
        (spec_format_block
          (List.zipWith (fun (row : List Int) (pchan : ADPCMChannel) =>
            (row.headD 0, pchan.index)) (XboxADPCMEncoder_new 1 0).buffer
            (XboxADPCMEncoder_new 1 0).channels)
          (List.zipWith (fun (row : List Int) (pchan : ADPCMChannel) =>
            (channel_codes (XboxADPCMEncoder_new 1 0).lookahead row
              { pchan with pcmdata := row.headD 0 } 1
              SAMPLES_PER_ADPCM_BLOCK).1) (XboxADPCMEncoder_new 1 0).buffer
            (XboxADPCMEncoder_new 1 0).channels))
        (XboxADPCMEncoder_new 1 0).channels.length 0
      = (decode_run
          (((List.zipWith (fun (row : List Int) (pchan : ADPCMChannel) =>
              (row.headD 0, pchan.index)) (XboxADPCMEncoder_new 1 0).buffer
              (XboxADPCMEncoder_new 1 0).channels).getD 0 (0, 0)).1,
           ((List.zipWith (fun (row : List Int) (pchan : ADPCMChannel) =>
              (row.headD 0, pchan.index)) (XboxADPCMEncoder_new 1 0).buffer
              (XboxADPCMEncoder_new 1 0).channels).getD 0 (0, 0)).2)
          ((List.zipWith (fun (row : List Int) (pchan : ADPCMChannel) =>
            (channel_codes (XboxADPCMEncoder_new 1 0).lookahead row
              { pchan with pcmdata := row.headD 0 } 1
              SAMPLES_PER_ADPCM_BLOCK).1) (XboxADPCMEncoder_new 1 0).buffer
            (XboxADPCMEncoder_new 1 0).channels).getD 0 [])).2 :=
  C2_block_format (XboxADPCMEncoder_new 1 0) 0 (by decide) (by decide)
    (by decide) (by decide)

end Xbadpcm
